import Mathlib

/-!
# Verification of the DAG layout engine (`src/graph/layout.rs`, `DagLayout::apply`)

Shallow embedding of the layout engine written to `src/graph/layout.rs` (the
source file is generated by `update_layout.py` and then patched by
`update_layout_clippy.py`).  `f32` coordinate arithmetic is modelled by exact
rationals (`ℚ`); all quantities appearing in the algorithm (sums of small
naturals, averages, linear coordinate formulas) are exactly representable.
Machine nondeterminism of `std::collections::HashMap` iteration is modelled by
an explicit `order` parameter: the sequence in which the key/value pairs of the
`layers` map are visited by the group-by-layer loop.
-/

/-- External node record: `id` plus mutable coordinates.  All other node
attributes are opaque to the engine and untouched, so they are omitted. -/
structure Node where
  id : ℕ
  x : ℚ
  y : ℚ

/-- A directed dependency edge `(source, target)` between external node ids. -/
structure Connection where
  source : ℕ
  target : ℕ

/-- The workflow snapshot handed to `DagLayout::apply`. -/
structure Workflow where
  nodes : List Node
  connections : List Connection

/-- Layout configuration: two numeric knobs. -/
structure DagLayout where
  layer_spacing : ℚ
  node_spacing : ℚ

/-- `Default for DagLayout`: `layer_spacing = 140.0`, `node_spacing = 60.0`. -/
def DagLayout.defaultLayout : DagLayout := ⟨140, 60⟩

/-- The `index_map : HashMap<NodeId, NodeIndex>` after the insertion loop.
`HashMap::insert` overwrites, so an id resolves to the index of the *last*
node in the list carrying that id.  Graph indices are list positions, matching
`Graph::add_node` being called once per node in list order. -/
def indexMap : List Node → ℕ → Option ℕ
  | [], _ => none
  | n :: ns, i =>
    match indexMap ns i with
    | some k => some (k + 1)
    | none => if n.id = i then some 0 else none

/-- The edge list of the internal petgraph `Graph`: one edge per connection
whose two endpoints both resolve in `index_map`; dangling connections are
silently dropped.  Duplicates and self-loops are kept (petgraph is a
multigraph). -/
def buildEdges (nodes : List Node) (conns : List Connection) : List (ℕ × ℕ) :=
  conns.filterMap fun c =>
    match indexMap nodes c.source, indexMap nodes c.target with
    | some s, some t => some (s, t)
    | _, _ => none

/-- A node is ready to be output by a topological sort once every edge into it
has its source already emitted. -/
def isReady (edges : List (ℕ × ℕ)) (emitted : List ℕ) (v : ℕ) : Bool :=
  edges.all fun e => decide (e.2 ≠ v ∨ e.1 ∈ emitted)

/-- Kahn-style topological sort, fuelled by the number of nodes still to be
placed (each successful step places exactly one node, so the fuel is exact). -/
def kahnAux (edges : List (ℕ × ℕ)) : ℕ → List ℕ → List ℕ → Option (List ℕ)
  | 0, remaining, emitted => if remaining.isEmpty then some emitted else none
  | fuel + 1, remaining, emitted =>
    match remaining.find? (isReady edges emitted) with
    | some v => kahnAux edges fuel (remaining.erase v) (emitted ++ [v])
    | none => if remaining.isEmpty then some emitted else none

/-- Embeds `petgraph::algo::toposort`: returns a topological order of the
indices `0..n`, or `none` exactly when the graph is cyclic.  (The layer
assignment downstream is the same for every topological order, so the
library's particular tie-breaking is immaterial.) -/
def toposort (edges : List (ℕ × ℕ)) (n : ℕ) : Option (List ℕ) :=
  kahnAux edges n (List.range n) []

/-- The body of the `for parent in graph.neighbors_directed(node_idx, Incoming)`
loop: `layer = layer.max(parent_layer + 1)` whenever the parent is already in
the `layers` map. -/
def layerStep (m : ℕ → Option ℕ) (v : ℕ) (layer : ℕ) (e : ℕ × ℕ) : ℕ :=
  if e.2 = v then
    match m e.1 with
    | some pl => max layer (pl + 1)
    | none => layer
  else layer

/-- The layer of `v`: `max` over all incoming edges `e` with an
already-layered source of `layer(source) + 1`, starting from `0`.
(`neighbors_directed(v, Incoming)` enumerates exactly the sources of edges
with target `v`, once per edge.) -/
def layerCalc (edges : List (ℕ × ℕ)) (m : ℕ → Option ℕ) (v : ℕ) : ℕ :=
  edges.foldl (layerStep m v) 0

/-- The layering loop over the topological order, building the `layers` map. -/
def buildLayers (edges : List (ℕ × ℕ)) : List ℕ → (ℕ → Option ℕ) → (ℕ → Option ℕ)
  | [], m => m
  | v :: rest, m =>
    buildLayers edges rest fun u => if u = v then some (layerCalc edges m v) else m u

/-- The finished `layers : HashMap<NodeIndex, usize>`. -/
def layersOf (edges : List (ℕ × ℕ)) (ord : List ℕ) : ℕ → Option ℕ :=
  buildLayers edges ord fun _ => none

/-- Append `v` to bucket `l`, first growing the bucket list with empty buckets
until it has a bucket `l` (the `while nodes_by_layer.len() <= layer` loop). -/
def pushAt : List (List ℕ) → ℕ → ℕ → List (List ℕ)
  | [], 0, v => [[v]]
  | [], l + 1, v => [] :: pushAt [] l v
  | b :: bs, 0, v => (b ++ [v]) :: bs
  | b :: bs, l + 1, v => b :: pushAt bs l v

/-- The group-by-layer loop `for (&node_idx, &layer) in &layers`.  The `order`
parameter is the iteration order of the `HashMap` (every key exactly once, in
an order the source leaves unspecified). -/
def groupByLayer (m : ℕ → Option ℕ) (order : List ℕ) : List (List ℕ) :=
  order.foldl
    (fun acc v =>
      match m v with
      | some l => pushAt acc l v
      | none => acc) []

/-- Sources of the edges into `v`, one entry per edge (parallel edges repeat),
as enumerated by `neighbors_directed(v, Incoming)`. -/
def inParents (edges : List (ℕ × ℕ)) (v : ℕ) : List ℕ :=
  edges.filterMap fun e => if e.2 = v then some e.1 else none

/-- The accumulation loop of the barycenter: for each incoming parent found in
the previous layer's order, add its position (first match of
`iter().position(...)`) to `sum` and `1` to `count`.  The `f32` accumulators
only ever hold small naturals, where `f32` arithmetic is exact, so they are
modelled as `ℕ`. -/
def barySums (prev : List ℕ) (ps : List ℕ) : ℕ × ℕ :=
  ps.foldl
    (fun sc p =>
      match prev.findIdx? (fun n => n == p) with
      | some pos => (sc.1 + pos, sc.2 + 1)
      | none => sc) (0, 0)

/-- The barycenter of `v` relative to the previous layer's current order:
`sum / count` if `count > 0`, else `0`. -/
def bary (edges : List (ℕ × ℕ)) (prev : List ℕ) (v : ℕ) : ℚ :=
  let sc := barySums prev (inParents edges v)
  if 0 < sc.2 then (sc.1 : ℚ) / (sc.2 : ℚ) else 0

/-- Insert `v` into `l` after every element whose key is `≤ key v`. -/
def insertByKey (key : ℕ → ℚ) (v : ℕ) : List ℕ → List ℕ
  | [] => [v]
  | w :: ws => if key w ≤ key v then w :: insertByKey key v ws else v :: w :: ws

/-- Stable sort by ascending key: embeds
`barycenters.sort_by(|a, b| a.1.partial_cmp(&b.1).unwrap())` on the
precomputed `(node, barycenter)` pairs — Rust's slice `sort_by` is a stable
sort, fully specified (up to the comparator being a total preorder, proved
elsewhere in this file) by sortedness plus stability. -/
def sortByKey (key : ℕ → ℚ) (l : List ℕ) : List ℕ :=
  l.foldl (fun acc v => insertByKey key v acc) []

/-- The inner loop `for layer_idx in 1..nodes_by_layer.len()` of one
crossing-minimization pass: each layer is re-sorted by barycenter against the
*just updated* order of the previous layer. -/
def sweep (edges : List (ℕ × ℕ)) : List ℕ → List (List ℕ) → List (List ℕ)
  | _, [] => []
  | prev, cur :: rest =>
    sortByKey (bary edges prev) cur ::
      sweep edges (sortByKey (bary edges prev) cur) rest

/-- One crossing-minimization pass: layer `0` is never reordered; layers from
`1` up are swept in order. -/
def onePass (edges : List (ℕ × ℕ)) : List (List ℕ) → List (List ℕ)
  | [] => []
  | first :: rest => first :: sweep edges first rest

/-- `for _ in 0..4`: exactly four unconditional passes. -/
def optimize (edges : List (ℕ × ℕ)) (buckets : List (List ℕ)) : List (List ℕ) :=
  onePass edges (onePass edges (onePass edges (onePass edges buckets)))

/-- Phase 4, per layer: the `i`-th node of a layer of `k` nodes receives
`x = -(k*(240+node_spacing) - node_spacing)/2 + i*(240+node_spacing)` and
`y = layer * layer_spacing`.  Entries are `(graph index, x, y)`. -/
def assignLayer (cfg : DagLayout) (layer : ℕ) (ns : List ℕ) : List (ℕ × ℚ × ℚ) :=
  ns.enum.map fun iv =>
    (iv.2,
      -((ns.length : ℚ) * (240 + cfg.node_spacing) - cfg.node_spacing) / 2 +
        (iv.1 : ℚ) * (240 + cfg.node_spacing),
      (layer : ℚ) * cfg.layer_spacing)

/-- All coordinate writes of phase 4, layer by layer in bucket order. -/
def assignments (cfg : DagLayout) (buckets : List (List ℕ)) : List (ℕ × ℚ × ℚ) :=
  (buckets.enum.map fun lns => assignLayer cfg lns.1 lns.2).flatten

/-- `workflow.nodes.iter_mut().find(|n| n.id == *node_id)` followed by the two
coordinate writes: mutate the *first* node in the list with the given id;
if no node matches, do nothing. -/
def updateFirst (i : ℕ) (x y : ℚ) : List Node → List Node
  | [] => []
  | n :: ns =>
    if n.id = i then { n with x := x, y := y } :: ns
    else n :: updateFirst i x y ns

/-- The write-back loop: each assignment's graph index is translated through
`reverse_map` (the id of the node that created that index, i.e. the entry of
the original node list at that position) and written onto the first node with
that id. -/
def writeBack (nodes0 : List Node) (asgn : List (ℕ × ℚ × ℚ)) (nodes : List Node) :
    List Node :=
  asgn.foldl
    (fun acc a =>
      match nodes0.get? a.1 with
      | some n0 => updateFirst n0.id a.2.1 a.2.2 acc
      | none => acc) nodes

/-- `DagLayout::apply`.  `order` models the iteration order of the unordered
`layers : HashMap` in the group-by-layer loop; a run of the Rust code
corresponds to some `order` that enumerates each key exactly once. -/
def DagLayout.apply (cfg : DagLayout) (order : List ℕ) (w : Workflow) : Workflow :=
  if w.nodes.isEmpty then w
  else
    match toposort (buildEdges w.nodes w.connections) w.nodes.length with
    | none => w
    | some ord =>
      { w with
        nodes :=
          writeBack w.nodes
            (assignments cfg
              (optimize (buildEdges w.nodes w.connections)
                (groupByLayer (layersOf (buildEdges w.nodes w.connections) ord) order)))
            w.nodes }

/-- `partial_cmp` on two `f32` values with NaN modelled as `none`: an ordering
comes back exactly when neither operand is NaN. -/
def pcmp (a b : Option ℚ) : Option Ordering :=
  match a, b with
  | some p, some q => some (compare p q)
  | _, _ => none

/-- NaN-propagating `f32` addition (the values reached here are small naturals,
where `f32` addition is exact). -/
def faddOpt (a b : Option ℚ) : Option ℚ :=
  match a, b with
  | some p, some q => some (p + q)
  | _, _ => none

/-- `f32` division with a NaN operand or a zero divisor conservatively
modelled as `none` (not finite). -/
def fdivOpt (a b : Option ℚ) : Option ℚ :=
  match a, b with
  | some p, some q => if q = 0 then none else some (p / q)
  | _, _ => none

/-- The barycenter accumulation loop with explicit NaN tracking. -/
def barySumsFloat (prev : List ℕ) (ps : List ℕ) : Option ℚ × Option ℚ :=
  ps.foldl
    (fun sc p =>
      match prev.findIdx? (fun n => n == p) with
      | some pos => (faddOpt sc.1 (some (pos : ℚ)), faddOpt sc.2 (some 1))
      | none => sc) (some 0, some 0)

/-- The barycenter with explicit NaN tracking.  `count > 0.0` is an `f32`
comparison, which is `false` on NaN, so the `0.0` fallback is taken then. -/
def baryFloat (edges : List (ℕ × ℕ)) (prev : List ℕ) (v : ℕ) : Option ℚ :=
  let sc := barySumsFloat prev (inParents edges v)
  match sc.2 with
  | some c => if 0 < c then fdivOpt sc.1 sc.2 else some 0
  | none => some 0

/-- Insertion against `a.1.partial_cmp(&b.1).unwrap()`: `none` models the
panic raised when the comparator meets a NaN key. -/
def insertPcmp (key : ℕ → Option ℚ) (v : ℕ) : List ℕ → Option (List ℕ)
  | [] => some [v]
  | w :: ws =>
    match pcmp (key w) (key v) with
    | none => none
    | some o =>
      if o = Ordering.gt then some (v :: w :: ws)
      else (insertPcmp key v ws).map fun l => w :: l

/-- The stable sort of one layer under the panicking comparator: `none` when
any comparison would panic. -/
def sortPcmp (key : ℕ → Option ℚ) (l : List ℕ) : Option (List ℕ) :=
  l.foldl (fun acc v => acc.bind (insertPcmp key v)) (some [])

/-- One sweep of a pass, with the sort's potential panic made explicit. -/
def sweepFloat (edges : List (ℕ × ℕ)) :
    List ℕ → List (List ℕ) → Option (List (List ℕ))
  | _, [] => some []
  | prev, cur :: rest =>
    match sortPcmp (baryFloat edges prev) cur with
    | none => none
    | some cur' => (sweepFloat edges cur' rest).map fun bs => cur' :: bs

/-- One pass, with the sort's potential panic made explicit. -/
def onePassFloat (edges : List (ℕ × ℕ)) :
    List (List ℕ) → Option (List (List ℕ))
  | [] => some []
  | first :: rest => (sweepFloat edges first rest).map fun bs => first :: bs

/-- The four passes, with the sort's potential panic made explicit. -/
def optimizeFloat (edges : List (ℕ × ℕ)) (bs : List (List ℕ)) :
    Option (List (List ℕ)) :=
  (((onePassFloat edges bs).bind (onePassFloat edges)).bind
      (onePassFloat edges)).bind (onePassFloat edges)

/-- `DagLayout::apply` with the only possible panic site (the `unwrap` in the
barycenter sort comparator) made explicit: `none` models a panic. -/
def applyFloat (cfg : DagLayout) (order : List ℕ) (w : Workflow) :
    Option Workflow :=
  if w.nodes.isEmpty then some w
  else
    match toposort (buildEdges w.nodes w.connections) w.nodes.length with
    | none => some w
    | some ord =>
      match optimizeFloat (buildEdges w.nodes w.connections)
          (groupByLayer (layersOf (buildEdges w.nodes w.connections) ord) order) with
      | none => none
      | some buckets =>
        some { w with nodes := writeBack w.nodes (assignments cfg buckets) w.nodes }

/-- Three nodes, node 1 connected to both 2 and 3 (a fork). -/
def wFork : Workflow :=
  { nodes := [{ id := 1, x := 0, y := 0 }, { id := 2, x := 0, y := 0 },
      { id := 3, x := 0, y := 0 }],
    connections := [{ source := 1, target := 2 }, { source := 1, target := 3 }] }

/-- A single disconnected node with nonzero initial coordinates. -/
def wOne : Workflow :=
  { nodes := [{ id := 1, x := 5, y := 7 }], connections := [] }

/-- A two-node chain 1 → 2. -/
def wChain : Workflow :=
  { nodes := [{ id := 1, x := 3, y := 4 }, { id := 2, x := 8, y := 9 }],
    connections := [{ source := 1, target := 2 }] }

/-- A two-node cycle 1 → 2 → 1. -/
def wCyc : Workflow :=
  { nodes := [{ id := 1, x := 3, y := 4 }, { id := 2, x := 8, y := 9 }],
    connections := [{ source := 1, target := 2 }, { source := 2, target := 1 }] }

/-- One node with a self-loop connection. -/
def wSelf : Workflow :=
  { nodes := [{ id := 1, x := 2, y := 3 }],
    connections := [{ source := 1, target := 1 }] }

/-- Two nodes sharing the same id. -/
def wDup : Workflow :=
  { nodes := [{ id := 1, x := 0, y := 0 }, { id := 1, x := 5, y := 6 }],
    connections := [] }

/-- `ord` lists the source of every edge strictly before the edge's target. -/
def TopoSorted (edges : List (ℕ × ℕ)) (ord : List ℕ) : Prop :=
  ∀ e ∈ edges, ∀ j, ord.get? j = some e.2 → ∃ i, i < j ∧ ord.get? i = some e.1

/-- One directed step along an edge of the internal graph. -/
def EdgeStep (edges : List (ℕ × ℕ)) (a b : ℕ) : Prop := (a, b) ∈ edges

/-- The internal graph has a (directed) cycle. -/
def HasCycle (edges : List (ℕ × ℕ)) : Prop :=
  ∃ v, Relation.TransGen (EdgeStep edges) v v

/-- The list is sorted by non-decreasing key. -/
def KeySorted (key : ℕ → ℚ) (l : List ℕ) : Prop :=
  l.Pairwise fun a b => key a ≤ key b

/-- Positions (0-based, first match) in `prev` of the direct predecessors of
`v` that occur in `prev`, one entry per incoming edge: the data the spec says
the barycenter averages. -/
def predPositions (edges : List (ℕ × ℕ)) (prev : List ℕ) (v : ℕ) : List ℕ :=
  (inParents edges v).filterMap fun p => prev.findIdx? fun n => n == p

/-! ## Basic facts about graph construction -/

theorem indexMap_lt {nodes : List Node} {i k : ℕ} (h : indexMap nodes i = some k) :
    k < nodes.length := by
  induction nodes generalizing k with
  | nil => simp [indexMap] at h
  | cons n ns ih =>
    rw [indexMap] at h
    cases hm : indexMap ns i with
    | some k' =>
      rw [hm] at h
      cases h
      exact Nat.succ_lt_succ (ih hm)
    | none =>
      rw [hm] at h
      by_cases hid : n.id = i
      · rw [if_pos hid] at h
        cases h
        simp
      · rw [if_neg hid] at h
        cases h

theorem indexMap_isSome {nodes : List Node} {i : ℕ}
    (h : ∃ nd ∈ nodes, nd.id = i) : ∃ k, indexMap nodes i = some k := by
  induction nodes with
  | nil => simp at h
  | cons n ns ih =>
    rw [indexMap]
    cases hm : indexMap ns i with
    | some k' => exact ⟨k' + 1, rfl⟩
    | none =>
      obtain ⟨nd, hnd, hide⟩ := h
      rcases List.mem_cons.mp hnd with rfl | hmem
      · simp [hide]
      · obtain ⟨k, hk⟩ := ih ⟨nd, hmem, hide⟩
        rw [hk] at hm
        cases hm

theorem buildEdges_mem {nodes : List Node} {conns : List Connection} {e : ℕ × ℕ}
    (h : e ∈ buildEdges nodes conns) :
    e.1 < nodes.length ∧ e.2 < nodes.length := by
  obtain ⟨c, _, hc⟩ := List.mem_filterMap.mp h
  cases hs : indexMap nodes c.source with
  | none => simp [hs] at hc
  | some s =>
    cases ht : indexMap nodes c.target with
    | none => simp [hs, ht] at hc
    | some t =>
      simp [hs, ht] at hc
      cases hc
      exact ⟨indexMap_lt hs, indexMap_lt ht⟩

theorem buildEdges_self_loop {nodes : List Node} {conns : List Connection}
    {c : Connection} {s : ℕ} (hc : c ∈ conns) (hst : c.source = c.target)
    (hs : indexMap nodes c.source = some s) :
    (s, s) ∈ buildEdges nodes conns := by
  refine List.mem_filterMap.mpr ⟨c, hc, ?_⟩
  rw [← hst, hs]

/-! ## Toposort: soundness and cycle rejection -/

theorem topoSorted_nil (edges : List (ℕ × ℕ)) : TopoSorted edges [] := by
  intro e _ j hj
  simp at hj

theorem topoSorted_append {edges : List (ℕ × ℕ)} {emitted : List ℕ} {v : ℕ}
    (h : TopoSorted edges emitted)
    (hv : ∀ e ∈ edges, e.2 = v → e.1 ∈ emitted) :
    TopoSorted edges (emitted ++ [v]) := by
  intro e he j hj
  by_cases hlt : j < emitted.length
  · rw [List.get?_append hlt] at hj
    obtain ⟨i, hij, hio⟩ := h e he j hj
    exact ⟨i, hij, by rw [List.get?_append (hij.trans hlt)]; exact hio⟩
  · have hj2 : e.2 = v := by
      have hjlen : j < emitted.length + 1 := by
        have := List.get?_eq_some.mp hj
        simpa using this.1
      have : j = emitted.length := by omega
      subst this
      rw [List.get?_concat_length] at hj
      exact (Option.some.inj hj).symm
    obtain ⟨i, hio⟩ := List.get?_of_mem (hv e he hj2)
    have hilen : i < emitted.length := (List.get?_eq_some.mp hio).1
    refine ⟨i, by omega, ?_⟩
    rw [List.get?_append hilen]
    exact hio

theorem isReady_sources {edges : List (ℕ × ℕ)} {emitted : List ℕ} {v : ℕ}
    (h : isReady edges emitted v = true) :
    ∀ e ∈ edges, e.2 = v → e.1 ∈ emitted := by
  intro e he h2
  have := (List.all_eq_true.mp h) e he
  rcases of_decide_eq_true this with hne | hmem
  · exact absurd h2 hne
  · exact hmem

theorem kahnAux_sound {edges : List (ℕ × ℕ)} :
    ∀ (fuel : ℕ) (remaining emitted out : List ℕ),
      kahnAux edges fuel remaining emitted = some out →
      TopoSorted edges emitted →
      out.Perm (emitted ++ remaining) ∧ TopoSorted edges out := by
  intro fuel
  induction fuel with
  | zero =>
    intro rem em out h ht
    rw [kahnAux] at h
    by_cases hre : rem.isEmpty
    · rw [if_pos hre] at h
      cases h
      rw [List.isEmpty_iff.mp hre]
      exact ⟨by simp, ht⟩
    · rw [if_neg hre] at h
      cases h
  | succ n ih =>
    intro rem em out h ht
    rw [kahnAux] at h
    cases hf : rem.find? (isReady edges em) with
    | some v =>
      rw [hf] at h
      have hv : v ∈ rem := List.mem_of_find?_eq_some hf
      have hready := List.find?_some hf
      have ht' : TopoSorted edges (em ++ [v]) :=
        topoSorted_append ht (isReady_sources hready)
      obtain ⟨hperm, hts⟩ := ih (rem.erase v) (em ++ [v]) out h ht'
      refine ⟨hperm.trans ?_, hts⟩
      have h2 : (em ++ [v]) ++ rem.erase v = em ++ (v :: rem.erase v) := by simp
      rw [h2]
      exact ((List.perm_cons_erase hv).symm).append_left em
    | none =>
      rw [hf] at h
      by_cases hre : rem.isEmpty
      · rw [if_pos hre] at h
        cases h
        rw [List.isEmpty_iff.mp hre]
        exact ⟨by simp, ht⟩
      · rw [if_neg hre] at h
        cases h

theorem toposort_sound {edges : List (ℕ × ℕ)} {n : ℕ} {ord : List ℕ}
    (h : toposort edges n = some ord) :
    ord.Perm (List.range n) ∧ TopoSorted edges ord := by
  have := kahnAux_sound n (List.range n) [] ord h (topoSorted_nil edges)
  simpa using this

theorem topoSorted_posLt {edges : List (ℕ × ℕ)} {ord : List ℕ}
    (ht : TopoSorted edges ord) {a b : ℕ}
    (h : Relation.TransGen (EdgeStep edges) a b) :
    ∀ j, ord.get? j = some b → ∃ i, i < j ∧ ord.get? i = some a := by
  induction h with
  | single hs => exact ht _ hs
  | tail _ hbc ih =>
    intro j hj
    obtain ⟨i, hij, hio⟩ := ht _ hbc j hj
    obtain ⟨k, hk, hko⟩ := ih i hio
    exact ⟨k, hk.trans hij, hko⟩

theorem no_get_of_cycle {edges : List (ℕ × ℕ)} {ord : List ℕ}
    (ht : TopoSorted edges ord) {v : ℕ}
    (hc : Relation.TransGen (EdgeStep edges) v v) :
    ∀ j, ord.get? j ≠ some v := by
  intro j
  induction j using Nat.strong_induction_on with
  | _ j ihj =>
    intro hj
    obtain ⟨i, hij, hio⟩ := topoSorted_posLt ht hc j hj
    exact ihj i hij hio

theorem transGen_first {r : ℕ → ℕ → Prop} {a b : ℕ}
    (h : Relation.TransGen r a b) : ∃ c, r a c := by
  induction h with
  | single hs => exact ⟨_, hs⟩
  | tail _ _ ih => exact ih

theorem toposort_eq_none {edges : List (ℕ × ℕ)} {n : ℕ}
    (hend : ∀ e ∈ edges, e.1 < n) (hc : HasCycle edges) :
    toposort edges n = none := by
  cases hto : toposort edges n with
  | none => rfl
  | some ord =>
    exfalso
    obtain ⟨hperm, ht⟩ := toposort_sound hto
    obtain ⟨v, hv⟩ := hc
    obtain ⟨c, hvc⟩ := transGen_first hv
    have hvn : v < n := by simpa using hend _ hvc
    have hvord : v ∈ ord := hperm.mem_iff.mpr (List.mem_range.mpr hvn)
    obtain ⟨j, hj⟩ := List.get?_of_mem hvord
    exact no_get_of_cycle ht hv j hj

theorem apply_eq_of_cycle {cfg : DagLayout} {order : List ℕ} {w : Workflow}
    (hc : HasCycle (buildEdges w.nodes w.connections)) :
    cfg.apply order w = w := by
  rw [DagLayout.apply]
  by_cases hemp : w.nodes.isEmpty
  · rw [if_pos hemp]
  · rw [if_neg hemp,
      toposort_eq_none (fun e he => (buildEdges_mem he).1) hc]

/-! ## Layering lemmas -/

theorem buildLayers_append (edges : List (ℕ × ℕ)) (l₁ l₂ : List ℕ) (m : ℕ → Option ℕ) :
    buildLayers edges (l₁ ++ l₂) m = buildLayers edges l₂ (buildLayers edges l₁ m) := by
  induction l₁ generalizing m with
  | nil => rfl
  | cons v rest ih => rw [List.cons_append, buildLayers, buildLayers, ih]

theorem buildLayers_not_mem (edges : List (ℕ × ℕ)) {l : List ℕ} {u : ℕ}
    (h : u ∉ l) (m : ℕ → Option ℕ) :
    buildLayers edges l m u = m u := by
  induction l generalizing m with
  | nil => rfl
  | cons v rest ih =>
    rw [buildLayers, ih fun hu => h (List.mem_cons_of_mem _ hu),
      if_neg fun he => h (by rw [he]; exact List.mem_cons_self _ _)]

theorem layersOf_eq_of_split (edges : List (ℕ × ℕ)) {l₁ l₂ : List ℕ} {v : ℕ}
    (h : v ∉ l₂) :
    layersOf edges (l₁ ++ v :: l₂) v
      = some (layerCalc edges (buildLayers edges l₁ fun _ => none) v) := by
  unfold layersOf
  rw [buildLayers_append, buildLayers, buildLayers_not_mem edges h, if_pos rfl]

theorem layerStep_le (m : ℕ → Option ℕ) (v : ℕ) (acc : ℕ) (e : ℕ × ℕ) :
    acc ≤ layerStep m v acc e := by
  unfold layerStep
  split
  · cases m e.1 with
    | none => exact le_refl _
    | some pl => exact le_max_left _ _
  · exact le_refl _

theorem layerStep_mono (m : ℕ → Option ℕ) (v : ℕ) {a b : ℕ} (h : a ≤ b) (e : ℕ × ℕ) :
    layerStep m v a e ≤ layerStep m v b e := by
  unfold layerStep
  split
  · cases m e.1 with
    | none => exact h
    | some pl => exact max_le_max h (le_refl _)
  · exact h

theorem foldl_layerStep_mono (m : ℕ → Option ℕ) (v : ℕ) (edges : List (ℕ × ℕ)) :
    ∀ {a b : ℕ}, a ≤ b →
      edges.foldl (layerStep m v) a ≤ edges.foldl (layerStep m v) b := by
  induction edges with
  | nil => intro a b h; exact h
  | cons e rest ih =>
    intro a b h
    rw [List.foldl_cons, List.foldl_cons]
    exact ih (layerStep_mono m v h e)

theorem foldl_layerStep_le (m : ℕ → Option ℕ) (v : ℕ) (edges : List (ℕ × ℕ))
    (acc : ℕ) : acc ≤ edges.foldl (layerStep m v) acc := by
  induction edges generalizing acc with
  | nil => exact le_refl _
  | cons e rest ih =>
    rw [List.foldl_cons]
    exact le_trans (layerStep_le m v acc e) (ih _)

theorem layerCalc_ge {edges : List (ℕ × ℕ)} {m : ℕ → Option ℕ} {v : ℕ}
    {e : ℕ × ℕ} (he : e ∈ edges) (hev : e.2 = v) {pl : ℕ}
    (hm : m e.1 = some pl) :
    pl + 1 ≤ layerCalc edges m v := by
  unfold layerCalc
  induction edges with
  | nil => cases he
  | cons e' rest ih =>
    rw [List.foldl_cons]
    rcases List.mem_cons.mp he with rfl | hmem
    · refine le_trans ?_ (foldl_layerStep_le m v rest _)
      unfold layerStep
      rw [if_pos hev, hm]
      exact le_max_right _ _
    · exact le_trans (ih hmem) (foldl_layerStep_mono m v rest (layerStep_le m v 0 e'))

theorem layerCalc_eq_zero {edges : List (ℕ × ℕ)} {m : ℕ → Option ℕ} {v : ℕ}
    (h : ∀ e ∈ edges, e.2 ≠ v) :
    layerCalc edges m v = 0 := by
  unfold layerCalc
  induction edges with
  | nil => rfl
  | cons e rest ih =>
    rw [List.foldl_cons]
    have hs : layerStep m v 0 e = 0 := by
      unfold layerStep
      rw [if_neg (h e (List.mem_cons_self _ _))]
    rw [hs]
    exact ih fun e' he' => h e' (List.mem_cons_of_mem _ he')

theorem buildLayers_isSome {edges : List (ℕ × ℕ)} {l : List ℕ} {v : ℕ} :
    ∀ m : ℕ → Option ℕ, v ∈ l ∨ (m v).isSome → (buildLayers edges l m v).isSome := by
  induction l with
  | nil =>
    intro m h
    rcases h with h | h
    · cases h
    · exact h
  | cons u rest ih =>
    intro m h
    rw [buildLayers]
    apply ih
    by_cases huv : v = u
    · right
      simp [huv]
    · rcases h with h | h
      · rcases List.mem_cons.mp h with h' | h'
        · exact absurd h' huv
        · left
          exact h'
      · right
        simpa [huv] using h

theorem layersOf_isSome {edges : List (ℕ × ℕ)} {ord : List ℕ} {v : ℕ}
    (h : v ∈ ord) : ∃ l, layersOf edges ord v = some l := by
  have := @buildLayers_isSome edges ord v (fun _ => none) (Or.inl h)
  exact Option.isSome_iff_exists.mp this

/-- For every edge of the internal graph whose endpoints both occur in the
(duplicate-free) topological order, the layering assigns strictly increasing
layers along the edge. -/
theorem layersOf_edge_lt {edges : List (ℕ × ℕ)} {ord : List ℕ}
    (hnd : ord.Nodup) (ht : TopoSorted edges ord) {e : ℕ × ℕ} (he : e ∈ edges)
    (hv : e.2 ∈ ord) :
    ∃ lu lv, layersOf edges ord e.1 = some lu ∧
      layersOf edges ord e.2 = some lv ∧ lu < lv := by
  obtain ⟨j, hj⟩ := List.get?_of_mem hv
  obtain ⟨i, hij, hi⟩ := ht e he j hj
  have hjl : j < ord.length := (List.get?_eq_some.mp hj).1
  -- split the order at position j
  have hsplit : ord = ord.take j ++ e.2 :: ord.drop (j + 1) := by
    conv_lhs => rw [← List.take_append_drop j ord]
    congr 1
    rw [List.drop_eq_get_cons hjl]
    congr 1
    have := (List.get?_eq_some.mp hj).2
    simpa using this
  have hu_take : e.1 ∈ ord.take j := by
    have : (ord.take j).get? i = some e.1 := by
      rw [List.get?_take hij]
      exact hi
    exact List.get?_mem this
  -- nodup facts for the split
  have hnd' : (ord.take j ++ e.2 :: ord.drop (j + 1)).Nodup := hsplit ▸ hnd
  rw [List.nodup_append] at hnd'
  obtain ⟨hnd₁, hnd₂, hdisj⟩ := hnd'
  rw [List.nodup_cons] at hnd₂
  obtain ⟨h2drop, _⟩ := hnd₂
  have h2take : e.2 ∉ ord.take j := fun hm => hdisj hm (List.mem_cons_self _ _)
  have hlv : layersOf edges ord e.2
      = some (layerCalc edges (buildLayers edges (ord.take j) fun _ => none) e.2) := by
    conv_lhs => rw [hsplit]
    exact layersOf_eq_of_split edges h2drop
  -- split the prefix at e.1
  obtain ⟨a, b, hab⟩ := List.append_of_mem hu_take
  have h1b : e.1 ∉ b := by
    have := hab ▸ hnd₁
    rw [List.nodup_append] at this
    exact (List.nodup_cons.mp this.2.1).1
  have h12 : e.1 ≠ e.2 := fun hq => h2take (hq ▸ hu_take)
  have h1rest : e.1 ∉ b ++ e.2 :: ord.drop (j + 1) := by
    intro hm
    rcases List.mem_append.mp hm with hm | hm
    · exact h1b hm
    · rcases List.mem_cons.mp hm with hm | hm
      · exact h12 hm
      · exact hdisj hu_take (List.mem_cons_of_mem _ hm)
  have hord2 : ord = a ++ e.1 :: (b ++ e.2 :: ord.drop (j + 1)) := by
    conv_lhs => rw [hsplit]
    rw [hab]
    simp
  have hlu : layersOf edges ord e.1
      = some (layerCalc edges (buildLayers edges a fun _ => none) e.1) := by
    conv_lhs => rw [hord2]
    exact layersOf_eq_of_split edges h1rest
  have hmu : buildLayers edges (ord.take j) (fun _ => none) e.1
      = some (layerCalc edges (buildLayers edges a fun _ => none) e.1) := by
    rw [hab, buildLayers_append, buildLayers, buildLayers_not_mem edges h1b,
      if_pos rfl]
  refine ⟨_, _, hlu, hlv, ?_⟩
  have := layerCalc_ge he rfl hmu
  omega

/-! ## The stable sort -/

theorem insertByKey_perm (key : ℕ → ℚ) (v : ℕ) (l : List ℕ) :
    List.Perm (insertByKey key v l) (v :: l) := by
  induction l with
  | nil => exact List.Perm.refl _
  | cons w ws ih =>
    rw [insertByKey]
    by_cases h : key w ≤ key v
    · rw [if_pos h]
      exact (ih.cons w).trans (List.Perm.swap v w ws)
    · rw [if_neg h]

theorem foldl_insertByKey_perm (key : ℕ → ℚ) :
    ∀ (l acc : List ℕ),
      List.Perm (l.foldl (fun acc v => insertByKey key v acc) acc) (acc ++ l) := by
  intro l
  induction l with
  | nil => intro acc; simp
  | cons v rest ih =>
    intro acc
    rw [List.foldl_cons]
    refine (ih _).trans ?_
    refine ((insertByKey_perm key v acc).append_right rest).trans ?_
    exact List.perm_middle.symm

theorem sortByKey_perm (key : ℕ → ℚ) (l : List ℕ) :
    List.Perm (sortByKey key l) l := by
  have := foldl_insertByKey_perm key l []
  simpa [sortByKey] using this

theorem keySorted_nil (key : ℕ → ℚ) : KeySorted key [] := List.Pairwise.nil

theorem insertByKey_sorted (key : ℕ → ℚ) (v : ℕ) {l : List ℕ}
    (h : KeySorted key l) : KeySorted key (insertByKey key v l) := by
  induction l with
  | nil => exact List.pairwise_singleton _ _
  | cons w ws ih =>
    rw [KeySorted, List.pairwise_cons] at h
    obtain ⟨hw, hws⟩ := h
    rw [insertByKey]
    by_cases hc : key w ≤ key v
    · rw [if_pos hc, KeySorted, List.pairwise_cons]
      refine ⟨?_, ih hws⟩
      intro x hx
      rcases List.mem_cons.mp ((insertByKey_perm key v ws).mem_iff.mp hx) with rfl | hxm
      · exact hc
      · exact hw x hxm
    · rw [if_neg hc, KeySorted, List.pairwise_cons]
      have hvw : key v ≤ key w := le_of_not_le hc
      refine ⟨?_, List.pairwise_cons.mpr ⟨hw, hws⟩⟩
      intro x hx
      rcases List.mem_cons.mp hx with rfl | hxm
      · exact hvw
      · exact hvw.trans (hw x hxm)

theorem foldl_insertByKey_sorted (key : ℕ → ℚ) :
    ∀ (l acc : List ℕ), KeySorted key acc →
      KeySorted key (l.foldl (fun acc v => insertByKey key v acc) acc) := by
  intro l
  induction l with
  | nil => intro acc h; exact h
  | cons v rest ih =>
    intro acc h
    rw [List.foldl_cons]
    exact ih _ (insertByKey_sorted key v h)

theorem sortByKey_sorted (key : ℕ → ℚ) (l : List ℕ) :
    KeySorted key (sortByKey key l) :=
  foldl_insertByKey_sorted key l [] (keySorted_nil key)

theorem insertByKey_filter_ne (key : ℕ → ℚ) (v : ℕ) {q : ℚ} (hne : key v ≠ q)
    (l : List ℕ) :
    (insertByKey key v l).filter (fun x => decide (key x = q))
      = l.filter fun x => decide (key x = q) := by
  induction l with
  | nil => simp [insertByKey, hne]
  | cons w ws ih =>
    rw [insertByKey]
    by_cases hc : key w ≤ key v
    · rw [if_pos hc, List.filter_cons, List.filter_cons, ih]
    · rw [if_neg hc, List.filter_cons]
      simp [hne]

theorem filter_eq_nil_of_gt (key : ℕ → ℚ) {q : ℚ} {l : List ℕ}
    (h : ∀ x ∈ l, q < key x) :
    l.filter (fun x => decide (key x = q)) = [] := by
  induction l with
  | nil => rfl
  | cons w ws ih =>
    rw [List.filter_cons]
    have hne : key w ≠ q := ne_of_gt (h w (List.mem_cons_self _ _))
    simp only [hne, decide_eq_true_eq, if_false]
    exact ih fun x hx => h x (List.mem_cons_of_mem _ hx)

theorem insertByKey_filter_eq (key : ℕ → ℚ) (v : ℕ) {q : ℚ} (heq : key v = q)
    {l : List ℕ} (h : KeySorted key l) :
    (insertByKey key v l).filter (fun x => decide (key x = q))
      = (l.filter fun x => decide (key x = q)) ++ [v] := by
  induction l with
  | nil => simp [insertByKey, heq]
  | cons w ws ih =>
    rw [KeySorted, List.pairwise_cons] at h
    obtain ⟨hw, hws⟩ := h
    rw [insertByKey]
    by_cases hc : key w ≤ key v
    · rw [if_pos hc, List.filter_cons, List.filter_cons, ih hws]
      split <;> simp
    · rw [if_neg hc, List.filter_cons]
      rw [if_pos (by simp [heq])]
      have hlt : key v < key w := lt_of_not_le hc
      have hnil : (w :: ws).filter (fun x => decide (key x = q)) = [] := by
        refine filter_eq_nil_of_gt key ?_
        intro x hx
        rcases List.mem_cons.mp hx with rfl | hxm
        · rw [← heq]; exact hlt
        · rw [← heq]; exact hlt.trans_le (hw x hxm)
      rw [hnil]
      rfl

theorem foldl_insertByKey_filter (key : ℕ → ℚ) (q : ℚ) :
    ∀ (l acc : List ℕ), KeySorted key acc →
      (l.foldl (fun acc v => insertByKey key v acc) acc).filter
          (fun x => decide (key x = q))
        = (acc.filter fun x => decide (key x = q))
            ++ (l.filter fun x => decide (key x = q)) := by
  intro l
  induction l with
  | nil => intro acc _; simp
  | cons v rest ih =>
    intro acc h
    rw [List.foldl_cons, ih _ (insertByKey_sorted key v h), List.filter_cons]
    by_cases hq : key v = q
    · rw [insertByKey_filter_eq key v hq h]
      simp [hq]
    · rw [insertByKey_filter_ne key v hq]
      simp [hq]

/-- Stability of the sort: the subsequence of elements with any given key value
is unchanged. -/
theorem sortByKey_filter (key : ℕ → ℚ) (q : ℚ) (l : List ℕ) :
    (sortByKey key l).filter (fun x => decide (key x = q))
      = l.filter fun x => decide (key x = q) := by
  have := foldl_insertByKey_filter key q l [] (keySorted_nil key)
  simpa [sortByKey] using this

/-! ## The barycenter formula -/

theorem barySums_spec (prev : List ℕ) (ps : List ℕ) :
    barySums prev ps
      = ((ps.filterMap fun p => prev.findIdx? fun n => n == p).sum,
         (ps.filterMap fun p => prev.findIdx? fun n => n == p).length) := by
  unfold barySums
  suffices h : ∀ s c : ℕ,
      ps.foldl
        (fun sc p =>
          match prev.findIdx? (fun n => n == p) with
          | some pos => (sc.1 + pos, sc.2 + 1)
          | none => sc) (s, c)
      = (s + (ps.filterMap fun p => prev.findIdx? fun n => n == p).sum,
         c + (ps.filterMap fun p => prev.findIdx? fun n => n == p).length) by
    have := h 0 0
    simpa using this
  induction ps with
  | nil => intro s c; simp
  | cons p rest ih =>
    intro s c
    rw [List.foldl_cons, List.filterMap_cons]
    cases hf : prev.findIdx? fun n => n == p with
    | none =>
      simp only [hf]
      exact ih s c
    | some pos =>
      simp only [hf]
      rw [ih (s + pos) (c + 1), List.sum_cons, List.length_cons]
      simp only [Prod.mk.injEq]
      omega

/-- The barycenter is the average of the predecessor positions, `0` if there
are none. -/
theorem bary_spec (edges : List (ℕ × ℕ)) (prev : List ℕ) (v : ℕ) :
    bary edges prev v
      = if predPositions edges prev v = [] then 0
        else ((predPositions edges prev v).map (Nat.cast : ℕ → ℚ)).sum
          / ((predPositions edges prev v).length : ℚ) := by
  unfold bary predPositions
  rw [barySums_spec]
  by_cases h : ((inParents edges v).filterMap fun p => prev.findIdx? fun n => n == p) = []
  · simp [h]
  · rw [if_neg h, if_pos (List.length_pos.mpr h), Nat.cast_list_sum]

/-! ## Grouping by layer and the optimization passes -/

theorem pushAt_flatten_perm : ∀ (l : ℕ) (acc : List (List ℕ)) (v : ℕ),
    List.Perm (pushAt acc l v).flatten (v :: acc.flatten) := by
  intro l
  induction l with
  | zero =>
    intro acc v
    cases acc with
    | nil => simp [pushAt]
    | cons b bs =>
      rw [pushAt]
      simp only [List.flatten_cons]
      have : (b ++ [v]) ++ bs.flatten = b ++ v :: bs.flatten := by simp
      rw [this]
      exact List.perm_middle
  | succ n ih =>
    intro acc v
    cases acc with
    | nil =>
      rw [pushAt]
      simp only [List.flatten_cons, List.nil_append]
      exact ih [] v
    | cons b bs =>
      rw [pushAt]
      simp only [List.flatten_cons]
      exact ((ih bs v).append_left b).trans List.perm_middle

theorem groupByLayer_flatten_perm (m : ℕ → Option ℕ) (order : List ℕ)
    (htot : ∀ v ∈ order, (m v).isSome) :
    List.Perm (groupByLayer m order).flatten order := by
  unfold groupByLayer
  suffices h : ∀ acc,
      (∀ v ∈ order, (m v).isSome) →
      List.Perm
        (order.foldl
          (fun acc v =>
            match m v with
            | some l => pushAt acc l v
            | none => acc) acc).flatten
        (acc.flatten ++ order) by
    have := h [] htot
    simpa using this
  clear htot
  induction order with
  | nil => intro acc _; simp
  | cons v rest ih =>
    intro acc htot
    rw [List.foldl_cons]
    obtain ⟨l, hl⟩ := Option.isSome_iff_exists.mp (htot v (List.mem_cons_self _ _))
    rw [hl]
    refine (ih (pushAt acc l v) fun u hu => htot u (List.mem_cons_of_mem _ hu)).trans ?_
    refine ((pushAt_flatten_perm l acc v).append_right rest).trans ?_
    exact List.perm_middle.symm

theorem pushAt_get?_ne : ∀ (l : ℕ) (acc : List (List ℕ)) (v l' : ℕ), l' ≠ l →
    (pushAt acc l v).get? l' = acc.get? l' ∨ (pushAt acc l v).get? l' = some [] := by
  intro l
  induction l with
  | zero =>
    intro acc v l' hne
    cases acc with
    | nil =>
      rw [pushAt]
      cases l' with
      | zero => exact absurd rfl hne
      | succ k => left; simp
    | cons b bs =>
      rw [pushAt]
      cases l' with
      | zero => exact absurd rfl hne
      | succ k => left; rfl
  | succ n ih =>
    intro acc v l' hne
    cases acc with
    | nil =>
      rw [pushAt]
      cases l' with
      | zero => right; rfl
      | succ k =>
        have := ih [] v k (by omega)
        rcases this with h | h
        · left
          simpa using h
        · right
          simpa using h
    | cons b bs =>
      rw [pushAt]
      cases l' with
      | zero => left; rfl
      | succ k =>
        have := ih bs v k (by omega)
        rcases this with h | h
        · left
          simpa using h
        · right
          simpa using h

theorem pushAt_get?_eq : ∀ (l : ℕ) (acc : List (List ℕ)) (v : ℕ),
    (pushAt acc l v).get? l = some ((acc.get? l).getD [] ++ [v]) := by
  intro l
  induction l with
  | zero =>
    intro acc v
    cases acc with
    | nil => rfl
    | cons b bs => rfl
  | succ n ih =>
    intro acc v
    cases acc with
    | nil =>
      rw [pushAt]
      have := ih [] v
      simpa using this
    | cons b bs =>
      rw [pushAt]
      have := ih bs v
      simpa using this

theorem groupByLayer_mem_layer (m : ℕ → Option ℕ) (order : List ℕ) :
    ∀ l' ns x, (groupByLayer m order).get? l' = some ns → x ∈ ns → m x = some l' := by
  unfold groupByLayer
  suffices h : ∀ acc,
      (∀ l' ns x, acc.get? l' = some ns → x ∈ ns → m x = some l') →
      ∀ l' ns x,
        (order.foldl
          (fun acc v =>
            match m v with
            | some l => pushAt acc l v
            | none => acc) acc).get? l' = some ns → x ∈ ns → m x = some l' by
    refine h [] ?_
    intro l' ns x hg
    simp at hg
  induction order with
  | nil => intro acc hacc; exact hacc
  | cons v rest ih =>
    intro acc hacc
    rw [List.foldl_cons]
    cases hm : m v with
    | none => exact ih acc hacc
    | some l =>
      refine ih (pushAt acc l v) ?_
      intro l' ns x hg hx
      by_cases hll : l' = l
      · subst hll
        rw [pushAt_get?_eq] at hg
        cases hg
        rcases List.mem_append.mp hx with hx | hx
        · cases hab : acc.get? l' with
          | none => rw [hab] at hx; cases hx
          | some ns₀ =>
            rw [hab] at hx
            exact hacc l' ns₀ x hab hx
        · rw [List.mem_singleton.mp hx]
          exact hm
      · rcases pushAt_get?_ne l acc v l' hll with h | h
        · rw [h] at hg
          exact hacc l' ns x hg hx
        · rw [h] at hg
          cases hg
          cases hx

theorem sweep_forall₂ (edges : List (ℕ × ℕ)) :
    ∀ (prev : List ℕ) (bs : List (List ℕ)),
      List.Forall₂ (fun a b => List.Perm a b) (sweep edges prev bs) bs := by
  intro prev bs
  induction bs generalizing prev with
  | nil => exact List.Forall₂.nil
  | cons cur rest ih =>
    rw [sweep]
    exact List.Forall₂.cons (sortByKey_perm _ _) (ih _)

theorem onePass_forall₂ (edges : List (ℕ × ℕ)) (bs : List (List ℕ)) :
    List.Forall₂ (fun a b => List.Perm a b) (onePass edges bs) bs := by
  cases bs with
  | nil => exact List.Forall₂.nil
  | cons first rest =>
    rw [onePass]
    exact List.Forall₂.cons (List.Perm.refl _) (sweep_forall₂ edges first rest)

theorem forall₂_perm_trans :
    ∀ {as bs cs : List (List ℕ)},
      List.Forall₂ (fun a b => List.Perm a b) as bs →
      List.Forall₂ (fun a b => List.Perm a b) bs cs →
      List.Forall₂ (fun a b => List.Perm a b) as cs := by
  intro as bs cs h
  induction h generalizing cs with
  | nil =>
    intro h2
    cases h2
    exact List.Forall₂.nil
  | cons hr _ ih =>
    intro h2
    cases h2 with
    | cons hr2 hrest2 => exact List.Forall₂.cons (hr.trans hr2) (ih hrest2)

theorem optimize_forall₂ (edges : List (ℕ × ℕ)) (bs : List (List ℕ)) :
    List.Forall₂ (fun a b => List.Perm a b) (optimize edges bs) bs := by
  unfold optimize
  exact forall₂_perm_trans (onePass_forall₂ edges _)
    (forall₂_perm_trans (onePass_forall₂ edges _)
      (forall₂_perm_trans (onePass_forall₂ edges _) (onePass_forall₂ edges bs)))

theorem forall₂_get? :
    ∀ {as bs : List (List ℕ)},
      List.Forall₂ (fun a b => List.Perm a b) as bs →
      ∀ i ns, as.get? i = some ns →
        ∃ ms, bs.get? i = some ms ∧ List.Perm ns ms := by
  intro as bs h
  induction h with
  | nil =>
    intro i ns h
    simp at h
  | cons hr hrest ih =>
    intro i ns hg
    cases i with
    | zero =>
      cases hg
      exact ⟨_, rfl, hr⟩
    | succ k => exact ih k ns hg

theorem forall₂_flatten_perm :
    ∀ {as bs : List (List ℕ)},
      List.Forall₂ (fun a b => List.Perm a b) as bs →
      List.Perm as.flatten bs.flatten := by
  intro as bs h
  induction h with
  | nil => exact List.Perm.refl _
  | cons hr _ ih =>
    simp only [List.flatten_cons]
    exact hr.append ih

/-! ## Write-back -/

theorem writeBack_cons (nodes0 : List Node) (a : ℕ × ℚ × ℚ)
    (rest : List (ℕ × ℚ × ℚ)) (cur : List Node) :
    writeBack nodes0 (a :: rest) cur
      = writeBack nodes0 rest
          (match nodes0.get? a.1 with
           | some n0 => updateFirst n0.id a.2.1 a.2.2 cur
           | none => cur) := by
  unfold writeBack
  rw [List.foldl_cons]

theorem writeBack_append (nodes0 : List Node) (p q : List (ℕ × ℚ × ℚ))
    (cur : List Node) :
    writeBack nodes0 (p ++ q) cur = writeBack nodes0 q (writeBack nodes0 p cur) := by
  unfold writeBack
  rw [List.foldl_append]

theorem updateFirst_id_map (i : ℕ) (x y : ℚ) :
    ∀ nodes : List Node,
      (updateFirst i x y nodes).map Node.id = nodes.map Node.id := by
  intro nodes
  induction nodes with
  | nil => rfl
  | cons n ns ih =>
    rw [updateFirst]
    by_cases h : n.id = i
    · rw [if_pos h]
      rfl
    · rw [if_neg h]
      simp only [List.map_cons]
      rw [ih]

theorem writeBack_id_map (nodes0 : List Node) :
    ∀ (asgn : List (ℕ × ℚ × ℚ)) (cur : List Node),
      (writeBack nodes0 asgn cur).map Node.id = cur.map Node.id := by
  intro asgn
  induction asgn with
  | nil => intro cur; rfl
  | cons a rest ih =>
    intro cur
    rw [writeBack_cons]
    cases h0 : nodes0.get? a.1 with
    | none =>
      simp only [h0]
      exact ih cur
    | some n0 =>
      simp only [h0]
      rw [ih, updateFirst_id_map]

theorem set_same {α : Type} : ∀ (l : List α) (k : ℕ) (a : α),
    l.get? k = some a → l.set k a = l := by
  intro l
  induction l with
  | nil =>
    intro k a h
    simp at h
  | cons n ns ih =>
    intro k a h
    cases k with
    | zero =>
      rw [List.get?_cons_zero] at h
      injection h with h
      rw [List.set_cons_zero, h]
    | succ m =>
      rw [List.get?_cons_succ] at h
      rw [List.set_cons_succ, ih m a h]

theorem updateFirst_eq_set {i : ℕ} {x y : ℚ} :
    ∀ {nodes : List Node} {k : ℕ} {nk : Node},
      nodes.get? k = some nk → nk.id = i →
      (∀ j, j < k → ∀ nj, nodes.get? j = some nj → nj.id ≠ i) →
      updateFirst i x y nodes = nodes.set k { nk with x := x, y := y } := by
  intro nodes
  induction nodes with
  | nil =>
    intro k nk h
    simp at h
  | cons n ns ih =>
    intro k nk hk hid hfirst
    cases k with
    | zero =>
      rw [List.get?_cons_zero] at hk
      injection hk with hk
      subst hk
      rw [updateFirst, if_pos hid]
      rfl
    | succ m =>
      have hne : n.id ≠ i := hfirst 0 (Nat.succ_pos m) n rfl
      rw [List.get?_cons_succ] at hk
      rw [updateFirst, if_neg hne, List.set_cons_succ,
        ih hk hid fun j hj nj hj2 => hfirst (j + 1) (by omega) nj hj2]

/-- With duplicate-free ids, a write through `reverse_map` lands exactly on the
list position that created the graph index. -/
theorem updateFirst_set_of_ids {nodes0 cur : List Node} {wi : ℕ} {n0 : Node}
    (hnd : (nodes0.map Node.id).Nodup)
    (hids : cur.map Node.id = nodes0.map Node.id)
    (h0 : nodes0.get? wi = some n0) (x y : ℚ) :
    ∃ nw : Node, cur.get? wi = some nw ∧ nw.id = n0.id ∧
      updateFirst n0.id x y cur = cur.set wi { nw with x := x, y := y } ∧
      (cur.set wi { nw with x := x, y := y }).map Node.id
        = nodes0.map Node.id := by
  have hlen : wi < (nodes0.map Node.id).length := by
    rw [List.length_map]
    exact (List.get?_eq_some.mp h0).1
  have hidw : (cur.map Node.id).get? wi = some n0.id := by
    rw [hids, List.get?_map, h0]
    rfl
  rw [List.get?_map] at hidw
  cases hw : cur.get? wi with
  | none =>
    rw [hw] at hidw
    cases hidw
  | some nw =>
    rw [hw] at hidw
    have hnwid : nw.id = n0.id := by
      injection hidw
    have hfirst : ∀ j, j < wi → ∀ nj, cur.get? j = some nj → nj.id ≠ n0.id := by
      intro j hj nj hj2 hcon
      have hjid : (cur.map Node.id).get? j = some n0.id := by
        rw [List.get?_map, hj2]
        simpa using hcon
      have hwid : (cur.map Node.id).get? wi = some n0.id := by
        rw [List.get?_map, hw]
        simpa using hnwid
      have hjw : j = wi :=
        List.get?_inj (List.get?_eq_some.mp hjid).1 (by rw [hids]; exact hnd)
          (by rw [hjid, hwid])
      omega
    refine ⟨nw, rfl, hnwid, updateFirst_eq_set hw hnwid hfirst, ?_⟩
    rw [List.map_set, hids]
    have : ({ nw with x := x, y := y } : Node).id = n0.id := hnwid
    rw [this]
    exact set_same _ _ _ (by rw [List.get?_map, h0]; rfl)

theorem writeBack_get?_notmem {nodes0 : List Node}
    (hnd : (nodes0.map Node.id).Nodup) :
    ∀ (asgn : List (ℕ × ℚ × ℚ)) (cur : List Node),
      cur.map Node.id = nodes0.map Node.id →
      ∀ v, v ∉ asgn.map Prod.fst →
        (writeBack nodes0 asgn cur).get? v = cur.get? v := by
  intro asgn
  induction asgn with
  | nil =>
    intro cur _ v _
    rfl
  | cons a rest ih =>
    intro cur hids v hv
    have hvne : v ≠ a.1 := by
      intro h
      exact hv (by rw [List.map_cons, h]; exact List.mem_cons_self _ _)
    have hvrest : v ∉ rest.map Prod.fst := by
      intro h
      exact hv (by rw [List.map_cons]; exact List.mem_cons_of_mem _ h)
    rw [writeBack_cons]
    cases h0 : nodes0.get? a.1 with
    | none =>
      simp only [h0]
      exact ih cur hids v hvrest
    | some n0 =>
      simp only [h0]
      obtain ⟨nw, hw, hnwid, hset, hids2⟩ := updateFirst_set_of_ids hnd hids h0 a.2.1 a.2.2
      rw [hset, ih _ hids2 v hvrest, List.get?_set_ne _ _ (fun h => hvne h.symm)]

theorem writeBack_get?_once {nodes0 : List Node}
    (hnd : (nodes0.map Node.id).Nodup)
    {p q : List (ℕ × ℚ × ℚ)} {v : ℕ} {x y : ℚ} {n0 : Node}
    (hv : nodes0.get? v = some n0)
    (hp : v ∉ p.map Prod.fst) (hq : v ∉ q.map Prod.fst) :
    (writeBack nodes0 (p ++ (v, x, y) :: q) nodes0).get? v
      = some { n0 with x := x, y := y } := by
  rw [writeBack_append, writeBack_cons]
  have hids1 : (writeBack nodes0 p nodes0).map Node.id = nodes0.map Node.id :=
    writeBack_id_map nodes0 p nodes0
  simp only [hv]
  obtain ⟨nw, hw, hnwid, hset, hids2⟩ := updateFirst_set_of_ids hnd hids1 hv x y
  have hwv : (writeBack nodes0 p nodes0).get? v = some n0 := by
    rw [writeBack_get?_notmem hnd p nodes0 rfl v hp]
    exact hv
  rw [hwv] at hw
  injection hw with hw
  subst hw
  rw [hset, writeBack_get?_notmem hnd q _ hids2 v hq]
  have hvlen : v < (writeBack nodes0 p nodes0).length := by
    have h1 := (List.get?_eq_some.mp hwv).1
    exact h1
  rw [List.get?_set_eq, hwv]
  rfl

/-! ## The assignment list and the master coordinate lemma -/

theorem assignLayer_map_fst (cfg : DagLayout) (layer : ℕ) (ns : List ℕ) :
    (assignLayer cfg layer ns).map Prod.fst = ns := by
  unfold assignLayer
  rw [List.map_map]
  exact List.enum_map_snd ns

theorem assignments_map_fst (cfg : DagLayout) (buckets : List (List ℕ)) :
    (assignments cfg buckets).map Prod.fst = buckets.flatten := by
  unfold assignments
  rw [List.map_flatten, List.map_map]
  have h : buckets.enum.map
      (List.map Prod.fst ∘ fun lns : ℕ × List ℕ => assignLayer cfg lns.1 lns.2)
      = buckets.enum.map Prod.snd := by
    refine List.map_congr_left ?_
    intro lns _
    exact assignLayer_map_fst cfg lns.1 lns.2
  rw [h, List.enum_map_snd]

theorem assignments_mem {cfg : DagLayout} {buckets : List (List ℕ)}
    {L i v : ℕ} {ns : List ℕ}
    (hL : buckets.get? L = some ns) (hi : ns.get? i = some v) :
    (v,
      -((ns.length : ℚ) * (240 + cfg.node_spacing) - cfg.node_spacing) / 2
        + (i : ℚ) * (240 + cfg.node_spacing),
      (L : ℚ) * cfg.layer_spacing) ∈ assignments cfg buckets := by
  unfold assignments
  rw [List.mem_flatten]
  refine ⟨assignLayer cfg L ns, ?_, ?_⟩
  · have hLmem : (L, ns) ∈ buckets.enum := List.mem_enum_iff_get?.mpr hL
    exact List.mem_map_of_mem _ hLmem
  · unfold assignLayer
    have himem : (i, v) ∈ ns.enum := List.mem_enum_iff_get?.mpr hi
    exact List.mem_map_of_mem _ himem

theorem apply_eq_writeBack {cfg : DagLayout} {order : List ℕ} {w : Workflow}
    {ord : List ℕ} (hne : w.nodes ≠ [])
    (htp : toposort (buildEdges w.nodes w.connections) w.nodes.length = some ord) :
    cfg.apply order w
      = { w with
          nodes :=
            writeBack w.nodes
              (assignments cfg
                (optimize (buildEdges w.nodes w.connections)
                  (groupByLayer
                    (layersOf (buildEdges w.nodes w.connections) ord) order)))
              w.nodes } := by
  rw [DagLayout.apply, if_neg (by rw [List.isEmpty_iff]; exact hne)]
  simp only [htp]

/-- Master lemma: under unique ids, a successful toposort and a complete
`HashMap` iteration order, the node that created graph index `v` ends with
exactly the coordinates of `v`'s slot (layer `L`, position `i`) in the
optimized buckets. -/
theorem apply_get?_coord {cfg : DagLayout} {order : List ℕ} {w : Workflow}
    {ord : List ℕ}
    (hnd : (w.nodes.map Node.id).Nodup)
    (htp : toposort (buildEdges w.nodes w.connections) w.nodes.length = some ord)
    (hperm : List.Perm order (List.range w.nodes.length))
    {L i v : ℕ} {ns : List ℕ} {n0 : Node}
    (hL : (optimize (buildEdges w.nodes w.connections)
        (groupByLayer (layersOf (buildEdges w.nodes w.connections) ord) order)).get? L
      = some ns)
    (hi : ns.get? i = some v)
    (hv : w.nodes.get? v = some n0) :
    (cfg.apply order w).nodes.get? v
      = some { n0 with
          x := -((ns.length : ℚ) * (240 + cfg.node_spacing) - cfg.node_spacing) / 2
                + (i : ℚ) * (240 + cfg.node_spacing),
          y := (L : ℚ) * cfg.layer_spacing } := by
  have hne : w.nodes ≠ [] := List.ne_nil_of_mem (List.get?_mem hv)
  obtain ⟨hordperm, hts⟩ := toposort_sound htp
  have htot : ∀ u ∈ order,
      ((layersOf (buildEdges w.nodes w.connections) ord) u).isSome := by
    intro u hu
    have hu2 : u ∈ ord := hordperm.mem_iff.mpr (hperm.mem_iff.mp hu)
    obtain ⟨l, hl⟩ := layersOf_isSome hu2
    rw [hl]
    rfl
  have hfl : List.Perm
      (optimize (buildEdges w.nodes w.connections)
        (groupByLayer (layersOf (buildEdges w.nodes w.connections) ord) order)).flatten
      (List.range w.nodes.length) :=
    (forall₂_flatten_perm (optimize_forall₂ _ _)).trans
      ((groupByLayer_flatten_perm _ order htot).trans hperm)
  have hflnd : (optimize (buildEdges w.nodes w.connections)
      (groupByLayer (layersOf (buildEdges w.nodes w.connections) ord) order)).flatten.Nodup :=
    hfl.nodup_iff.mpr (List.nodup_range _)
  have hmem := @assignments_mem cfg _ _ _ _ _ hL hi
  obtain ⟨p, q, hpq⟩ := List.append_of_mem hmem
  have hfsteq : p.map Prod.fst ++ v :: q.map Prod.fst
      = (optimize (buildEdges w.nodes w.connections)
          (groupByLayer (layersOf (buildEdges w.nodes w.connections) ord) order)).flatten := by
    rw [← assignments_map_fst cfg, hpq]
    simp
  have hnodup2 : (p.map Prod.fst ++ v :: q.map Prod.fst).Nodup := by
    rw [hfsteq]
    exact hflnd
  rw [List.nodup_append] at hnodup2
  obtain ⟨_, hq2, hdisj⟩ := hnodup2
  have hvp : v ∉ p.map Prod.fst := fun hm => hdisj hm (List.mem_cons_self _ _)
  have hvq : v ∉ q.map Prod.fst := (List.nodup_cons.mp hq2).1
  rw [apply_eq_writeBack hne htp]
  simp only []
  rw [hpq]
  exact writeBack_get?_once hnd hv hvp hvq

/-! ## Locating nodes in the optimized buckets -/

theorem flatten_mem_exists {bs : List (List ℕ)} {u : ℕ} (h : u ∈ bs.flatten) :
    ∃ L ns i, bs.get? L = some ns ∧ ns.get? i = some u := by
  obtain ⟨ns, hns, hu⟩ := List.mem_flatten.mp h
  obtain ⟨L, hL⟩ := List.get?_of_mem hns
  obtain ⟨i, hi⟩ := List.get?_of_mem hu
  exact ⟨L, ns, i, hL, hi⟩

theorem optimize_bucket_layer {edges : List (ℕ × ℕ)} {m : ℕ → Option ℕ}
    {order : List ℕ} {L : ℕ} {ns : List ℕ} {u : ℕ}
    (hL : (optimize edges (groupByLayer m order)).get? L = some ns) (hu : u ∈ ns) :
    m u = some L := by
  obtain ⟨ms, hms, hperm⟩ :=
    forall₂_get? (optimize_forall₂ edges (groupByLayer m order)) L ns hL
  exact groupByLayer_mem_layer m order L ms u hms (hperm.mem_iff.mp hu)

theorem optimize_flatten_perm_range {w : Workflow} {order ord : List ℕ}
    (htp : toposort (buildEdges w.nodes w.connections) w.nodes.length = some ord)
    (hperm : List.Perm order (List.range w.nodes.length)) :
    List.Perm
      (optimize (buildEdges w.nodes w.connections)
        (groupByLayer (layersOf (buildEdges w.nodes w.connections) ord) order)).flatten
      (List.range w.nodes.length) := by
  obtain ⟨hordperm, _⟩ := toposort_sound htp
  have htot : ∀ u ∈ order,
      ((layersOf (buildEdges w.nodes w.connections) ord) u).isSome := by
    intro u hu
    obtain ⟨l, hl⟩ := layersOf_isSome (hordperm.mem_iff.mpr (hperm.mem_iff.mp hu))
    rw [hl]
    rfl
  exact (forall₂_flatten_perm (optimize_forall₂ _ _)).trans
    ((groupByLayer_flatten_perm _ order htot).trans hperm)

theorem get?_isSome_of_lt {l : List Node} {v : ℕ} (h : v < l.length) :
    ∃ n0, l.get? v = some n0 := by
  cases hg : l.get? v with
  | none =>
    rw [List.get?_eq_none] at hg
    omega
  | some n0 => exact ⟨n0, rfl⟩

/-! ## Claim theorems: cycles -/

/-- **C2**: for every workflow whose internal graph (after dropping dangling
connections) contains a cycle, `apply` returns the workflow unchanged — every
node's `x` and `y` equal their values on entry, for every configuration and
every `HashMap` iteration order; the layout is a complete no-op. -/
theorem cyclic_apply_noop (cfg : DagLayout) (order : List ℕ) (w : Workflow)
    (hc : HasCycle (buildEdges w.nodes w.connections)) :
    cfg.apply order w = w :=
  apply_eq_of_cycle hc

/-- **C9**: a self-loop connection (source = target) whose id resolves in the
node list makes the internal graph cyclic, so `apply` leaves every node's
coordinates unchanged — the entire layout is skipped, not just the self-loop
edge. -/
theorem self_loop_apply_noop (cfg : DagLayout) (order : List ℕ) (w : Workflow)
    {c : Connection} (hc : c ∈ w.connections) (hst : c.source = c.target)
    (hid : ∃ nd ∈ w.nodes, nd.id = c.source) :
    cfg.apply order w = w := by
  obtain ⟨s, hs⟩ := indexMap_isSome hid
  exact apply_eq_of_cycle
    ⟨s, Relation.TransGen.single (buildEdges_self_loop hc hst hs)⟩

/-! ## Claim theorems: layering and coordinates -/

/-- **C3**: on an acyclic input (successful toposort) with unique node ids and
a complete grouping order, every edge `(u, v)` kept in the internal graph gets
`layer u < layer v` from the longest-path layering, and consequently the
written-back coordinates satisfy `y u + layer_spacing ≤ y v` for any positive
`layer_spacing`. -/
theorem layering_correct {cfg : DagLayout} {order : List ℕ} {w : Workflow}
    {ord : List ℕ}
    (hnd : (w.nodes.map Node.id).Nodup)
    (htp : toposort (buildEdges w.nodes w.connections) w.nodes.length = some ord)
    (hperm : List.Perm order (List.range w.nodes.length))
    (hsp : 0 < cfg.layer_spacing)
    {e : ℕ × ℕ} (he : e ∈ buildEdges w.nodes w.connections) :
    (∃ lu lv, layersOf (buildEdges w.nodes w.connections) ord e.1 = some lu ∧
        layersOf (buildEdges w.nodes w.connections) ord e.2 = some lv ∧ lu < lv) ∧
    ∃ nu nv, (cfg.apply order w).nodes.get? e.1 = some nu ∧
      (cfg.apply order w).nodes.get? e.2 = some nv ∧
      nu.y + cfg.layer_spacing ≤ nv.y := by
  obtain ⟨h1n, h2n⟩ := buildEdges_mem he
  obtain ⟨hordperm, hts⟩ := toposort_sound htp
  have hordnd : ord.Nodup := hordperm.nodup_iff.mpr (List.nodup_range _)
  have h2ord : e.2 ∈ ord := hordperm.mem_iff.mpr (List.mem_range.mpr h2n)
  obtain ⟨lu, lv, hlu, hlv, hlt⟩ := layersOf_edge_lt hordnd hts he h2ord
  refine ⟨⟨lu, lv, hlu, hlv, hlt⟩, ?_⟩
  have hflat := optimize_flatten_perm_range htp hperm
  have h1mem : e.1 ∈ (optimize (buildEdges w.nodes w.connections)
      (groupByLayer (layersOf (buildEdges w.nodes w.connections) ord) order)).flatten :=
    hflat.mem_iff.mpr (List.mem_range.mpr h1n)
  have h2mem : e.2 ∈ (optimize (buildEdges w.nodes w.connections)
      (groupByLayer (layersOf (buildEdges w.nodes w.connections) ord) order)).flatten :=
    hflat.mem_iff.mpr (List.mem_range.mpr h2n)
  obtain ⟨Lu, nsu, iu, hLu, hiu⟩ := flatten_mem_exists h1mem
  obtain ⟨Lv, nsv, iv, hLv, hiv⟩ := flatten_mem_exists h2mem
  have hLu' : layersOf (buildEdges w.nodes w.connections) ord e.1 = some Lu :=
    optimize_bucket_layer hLu (List.get?_mem hiu)
  have hLv' : layersOf (buildEdges w.nodes w.connections) ord e.2 = some Lv :=
    optimize_bucket_layer hLv (List.get?_mem hiv)
  have hLueq : Lu = lu := by
    rw [hLu'] at hlu
    injection hlu
  have hLveq : Lv = lv := by
    rw [hLv'] at hlv
    injection hlv
  obtain ⟨nu0, hnu0⟩ := get?_isSome_of_lt h1n
  obtain ⟨nv0, hnv0⟩ := get?_isSome_of_lt h2n
  refine ⟨_, _, apply_get?_coord hnd htp hperm hLu hiu hnu0,
    apply_get?_coord hnd htp hperm hLv hiv hnv0, ?_⟩
  simp only []
  subst hLueq hLveq
  have hcast : (Lu : ℚ) + 1 ≤ (Lv : ℚ) := by
    exact_mod_cast hlt
  have := mul_le_mul_of_nonneg_right hcast hsp.le
  nlinarith [this]

/-- **C7**: on an acyclic input with unique ids and a complete grouping order,
every node with zero incoming edges in the internal graph (including a fully
disconnected node) is assigned layer 0 and its written-back `y` is `0`. -/
theorem root_layer_zero {cfg : DagLayout} {order : List ℕ} {w : Workflow}
    {ord : List ℕ}
    (hnd : (w.nodes.map Node.id).Nodup)
    (htp : toposort (buildEdges w.nodes w.connections) w.nodes.length = some ord)
    (hperm : List.Perm order (List.range w.nodes.length))
    {v : ℕ} (hvn : v < w.nodes.length)
    (hroot : ∀ e ∈ buildEdges w.nodes w.connections, e.2 ≠ v) :
    layersOf (buildEdges w.nodes w.connections) ord v = some 0 ∧
    ∃ nv, (cfg.apply order w).nodes.get? v = some nv ∧ nv.y = 0 := by
  obtain ⟨hordperm, hts⟩ := toposort_sound htp
  have hordnd : ord.Nodup := hordperm.nodup_iff.mpr (List.nodup_range _)
  have hvord : v ∈ ord := hordperm.mem_iff.mpr (List.mem_range.mpr hvn)
  obtain ⟨s, t, hst⟩ := List.append_of_mem hvord
  have hvt : v ∉ t := by
    have := hst ▸ hordnd
    rw [List.nodup_append] at this
    exact (List.nodup_cons.mp this.2.1).1
  have hlay : layersOf (buildEdges w.nodes w.connections) ord v = some 0 := by
    conv_lhs => rw [hst]
    rw [layersOf_eq_of_split _ hvt, layerCalc_eq_zero hroot]
  refine ⟨hlay, ?_⟩
  have hflat := optimize_flatten_perm_range htp hperm
  have hvmem : v ∈ (optimize (buildEdges w.nodes w.connections)
      (groupByLayer (layersOf (buildEdges w.nodes w.connections) ord) order)).flatten :=
    hflat.mem_iff.mpr (List.mem_range.mpr hvn)
  obtain ⟨L, ns, i, hL, hi⟩ := flatten_mem_exists hvmem
  have hL0 : layersOf (buildEdges w.nodes w.connections) ord v = some L :=
    optimize_bucket_layer hL (List.get?_mem hi)
  have hLeq : L = 0 := by
    rw [hlay] at hL0
    injection hL0 with h
    omega
  subst hLeq
  obtain ⟨nv0, hnv0⟩ := get?_isSome_of_lt hvn
  refine ⟨_, apply_get?_coord hnd htp hperm hL hi hnv0, ?_⟩
  simp

/-- **C6**: on an acyclic non-empty input with unique ids and a complete
grouping order, the node occupying slot `i` (0-based) of layer `L` in the
post-optimization order receives exactly
`x = -(k*(240+node_spacing) - node_spacing)/2 + i*(240+node_spacing)` (where
`k` is the layer's node count) and `y = L*layer_spacing`. -/
theorem coordinate_assignment_formula {cfg : DagLayout} {order : List ℕ}
    {w : Workflow} {ord : List ℕ}
    (hnd : (w.nodes.map Node.id).Nodup)
    (htp : toposort (buildEdges w.nodes w.connections) w.nodes.length = some ord)
    (hperm : List.Perm order (List.range w.nodes.length))
    {L i v : ℕ} {ns : List ℕ} {n0 : Node}
    (hL : (optimize (buildEdges w.nodes w.connections)
        (groupByLayer (layersOf (buildEdges w.nodes w.connections) ord) order)).get? L
      = some ns)
    (hi : ns.get? i = some v)
    (hv : w.nodes.get? v = some n0) :
    (cfg.apply order w).nodes.get? v
      = some { n0 with
          x := -((ns.length : ℚ) * (240 + cfg.node_spacing) - cfg.node_spacing) / 2
                + (i : ℚ) * (240 + cfg.node_spacing),
          y := (L : ℚ) * cfg.layer_spacing } :=
  apply_get?_coord hnd htp hperm hL hi hv

/-! ## Claim theorem: the crossing-minimization phase -/

theorem onePass_get?_zero (edges : List (ℕ × ℕ)) (bs : List (List ℕ)) :
    (onePass edges bs).get? 0 = bs.get? 0 := by
  cases bs with
  | nil => rfl
  | cons first rest => rfl

theorem optimize_get?_zero (edges : List (ℕ × ℕ)) (bs : List (List ℕ)) :
    (optimize edges bs).get? 0 = bs.get? 0 := by
  unfold optimize
  rw [onePass_get?_zero, onePass_get?_zero, onePass_get?_zero, onePass_get?_zero]

/-- **C5**: the crossing-minimization phase runs exactly 4 unconditional
passes; layer 0 is never reordered; within a pass each layer `L ≥ 1` is
replaced by a reordering of itself (a permutation) that is sorted by ascending
barycenter and stable (the subsequence at any fixed barycenter value is
preserved), computed against the just-updated order of layer `L-1`; and the
barycenter of a node is the average of the 0-based positions in the previous
layer's current order of its direct predecessors found there, `0` if there are
none. -/
theorem crossing_minimization_spec (edges : List (ℕ × ℕ)) :
    (∀ buckets, optimize edges buckets
        = onePass edges (onePass edges (onePass edges (onePass edges buckets)))) ∧
    (∀ buckets, (optimize edges buckets).get? 0 = buckets.get? 0) ∧
    (∀ first rest, onePass edges (first :: rest) = first :: sweep edges first rest) ∧
    (∀ prev cur rest,
        sweep edges prev (cur :: rest)
          = sortByKey (bary edges prev) cur ::
              sweep edges (sortByKey (bary edges prev) cur) rest) ∧
    (∀ prev cur, List.Perm (sortByKey (bary edges prev) cur) cur) ∧
    (∀ prev cur, KeySorted (bary edges prev) (sortByKey (bary edges prev) cur)) ∧
    (∀ prev cur q,
        (sortByKey (bary edges prev) cur).filter
            (fun x => decide (bary edges prev x = q))
          = cur.filter fun x => decide (bary edges prev x = q)) ∧
    (∀ prev v, bary edges prev v
        = if predPositions edges prev v = [] then 0
          else ((predPositions edges prev v).map (Nat.cast : ℕ → ℚ)).sum
            / ((predPositions edges prev v).length : ℚ)) :=
  ⟨fun _ => rfl, optimize_get?_zero edges, fun _ _ => rfl, fun _ _ _ => rfl,
    fun _ cur => sortByKey_perm _ cur, fun _ cur => sortByKey_sorted _ cur,
    fun _ cur q => sortByKey_filter _ q cur, fun prev v => bary_spec edges prev v⟩

/-! ## Claim theorem: duplicate ids (C10) -/

theorem updateFirst_get?_ne {idv : ℕ} {x y : ℚ} :
    ∀ {cur : List Node} {j : ℕ} {nj : Node},
      cur.get? j = some nj → nj.id ≠ idv →
      (updateFirst idv x y cur).get? j = some nj := by
  intro cur
  induction cur with
  | nil =>
    intro j nj h
    simp at h
  | cons n ns ih =>
    intro j nj hj hne
    rw [updateFirst]
    by_cases hn : n.id = idv
    · rw [if_pos hn]
      cases j with
      | zero =>
        rw [List.get?_cons_zero] at hj
        injection hj with hj
        subst hj
        exact absurd hn hne
      | succ k =>
        rw [List.get?_cons_succ] at hj
        rw [List.get?_cons_succ]
        exact hj
    · rw [if_neg hn]
      cases j with
      | zero => exact hj
      | succ k =>
        rw [List.get?_cons_succ] at hj
        rw [List.get?_cons_succ]
        exact ih hj hne

theorem updateFirst_get?_later {idv : ℕ} {x y : ℚ} :
    ∀ {cur : List Node} {i j : ℕ} {ni : Node},
      i < j → cur.get? i = some ni → ni.id = idv →
      (updateFirst idv x y cur).get? j = cur.get? j := by
  intro cur
  induction cur with
  | nil =>
    intro i j ni _ h
    simp at h
  | cons n ns ih =>
    intro i j ni hij hi hid
    rw [updateFirst]
    by_cases hn : n.id = idv
    · rw [if_pos hn]
      cases j with
      | zero => omega
      | succ k => rw [List.get?_cons_succ, List.get?_cons_succ]
    · rw [if_neg hn]
      cases i with
      | zero =>
        rw [List.get?_cons_zero] at hi
        injection hi with hi
        subst hi
        exact absurd hid hn
      | succ m =>
        cases j with
        | zero => omega
        | succ k =>
          rw [List.get?_cons_succ] at hi
          rw [List.get?_cons_succ, List.get?_cons_succ]
          exact ih (by omega) hi hid

theorem writeBack_get?_dup {nodes0 : List Node} {i j : ℕ} {ni : Node}
    (hi0 : nodes0.get? i = some ni) (hij : i < j) :
    ∀ (asgn : List (ℕ × ℚ × ℚ)) (cur : List Node),
      cur.map Node.id = nodes0.map Node.id →
      ∀ nj, cur.get? j = some nj → nj.id = ni.id →
        (writeBack nodes0 asgn cur).get? j = some nj := by
  intro asgn
  induction asgn with
  | nil =>
    intro cur _ nj hj _
    exact hj
  | cons a rest ih =>
    intro cur hids nj hj hid
    rw [writeBack_cons]
    cases h0 : nodes0.get? a.1 with
    | none =>
      simp only [h0]
      exact ih cur hids nj hj hid
    | some n0 =>
      simp only [h0]
      by_cases hcase : n0.id = nj.id
      · have hii : Option.map Node.id (cur.get? i) = some ni.id := by
          rw [← List.get?_map, hids, List.get?_map, hi0]
          rfl
        cases hci : cur.get? i with
        | none =>
          rw [hci] at hii
          cases hii
        | some mi =>
          rw [hci] at hii
          have hmi : mi.id = n0.id := by
            injection hii with h
            rw [h, ← hid, hcase]
          refine ih _ ?_ nj ?_ hid
          · rw [updateFirst_id_map, hids]
          · rw [updateFirst_get?_later hij hci hmi, hj]
      · have hres : (updateFirst n0.id a.2.1 a.2.2 cur).get? j = some nj :=
          updateFirst_get?_ne hj fun h => hcase h.symm
        refine ih _ ?_ nj hres hid
        rw [updateFirst_id_map, hids]

/-- **C10**: when two nodes carry the same id, write-back always resolves to
the first of them, so a node preceded by an earlier node with the same id is
never modified by `apply`: its whole record (in particular `x` and `y`) is
returned unchanged, for every configuration and iteration order. -/
theorem duplicate_id_untouched (cfg : DagLayout) (order : List ℕ) {w : Workflow}
    {i j : ℕ} {ni nj : Node}
    (hi : w.nodes.get? i = some ni) (hj : w.nodes.get? j = some nj)
    (hij : i < j) (hid : nj.id = ni.id) :
    (cfg.apply order w).nodes.get? j = some nj := by
  rw [DagLayout.apply]
  by_cases hemp : w.nodes.isEmpty = true
  · rw [if_pos hemp]
    exact hj
  · rw [if_neg hemp]
    cases htp : toposort (buildEdges w.nodes w.connections) w.nodes.length with
    | none => exact hj
    | some ord => exact writeBack_get?_dup hi hij _ w.nodes rfl nj hj hid

/-! ## Claim theorem: horizontal centering (C4, amended) -/

/-- **C4 (amended)**: within any non-empty layer the minimum and the maximum
assigned x are symmetric about `-120`, not about `0`: they always sum to
`-240` (the negated node width), for every layer index and every
`node_spacing > -240`. -/
theorem horizontal_centering_amended (cfg : DagLayout) (L : ℕ) {ns : List ℕ}
    (hne : ns ≠ []) (hs : -240 < cfg.node_spacing) :
    ∃ m M : ℚ,
      (m ∈ (assignLayer cfg L ns).map (fun a => a.2.1) ∧
        ∀ b ∈ (assignLayer cfg L ns).map (fun a => a.2.1), m ≤ b) ∧
      (M ∈ (assignLayer cfg L ns).map (fun a => a.2.1) ∧
        ∀ b ∈ (assignLayer cfg L ns).map (fun a => a.2.1), b ≤ M) ∧
      m + M = -240 := by
  have hk1 : 1 ≤ ns.length := List.length_pos.mpr hne
  have hstep : (0 : ℚ) < 240 + cfg.node_spacing := by linarith
  have hxs : (assignLayer cfg L ns).map (fun a => a.2.1)
      = (List.range ns.length).map
          (fun i : ℕ =>
            -((ns.length : ℚ) * (240 + cfg.node_spacing) - cfg.node_spacing) / 2
              + (i : ℚ) * (240 + cfg.node_spacing)) := by
    unfold assignLayer
    rw [List.map_map, ← List.enum_map_fst ns, List.map_map]
    rfl
  rw [hxs]
  refine ⟨-((ns.length : ℚ) * (240 + cfg.node_spacing) - cfg.node_spacing) / 2
        + ((0 : ℕ) : ℚ) * (240 + cfg.node_spacing),
      -((ns.length : ℚ) * (240 + cfg.node_spacing) - cfg.node_spacing) / 2
        + ((ns.length - 1 : ℕ) : ℚ) * (240 + cfg.node_spacing),
      ⟨?_, ?_⟩, ⟨?_, ?_⟩, ?_⟩
  · exact List.mem_map_of_mem _ (List.mem_range.mpr (by omega))
  · intro b hb
    obtain ⟨i, _, hbi⟩ := List.mem_map.mp hb
    subst hbi
    have h0 : (0 : ℚ) ≤ (i : ℚ) * (240 + cfg.node_spacing) :=
      mul_nonneg (Nat.cast_nonneg i) hstep.le
    push_cast
    linarith
  · exact List.mem_map_of_mem _ (List.mem_range.mpr (by omega))
  · intro b hb
    obtain ⟨i, hi, hbi⟩ := List.mem_map.mp hb
    subst hbi
    have hik : (i : ℚ) ≤ ((ns.length - 1 : ℕ) : ℚ) := by
      have h1 := List.mem_range.mp hi
      have h2 : i ≤ ns.length - 1 := by omega
      exact_mod_cast h2
    have := mul_le_mul_of_nonneg_right hik hstep.le
    linarith
  · have hcast : ((ns.length - 1 : ℕ) : ℚ) = (ns.length : ℚ) - 1 := by
      rw [Nat.cast_sub hk1]
      simp
    rw [hcast]
    push_cast
    ring

/-! ## Claim theorem: absence of panics (C8) -/

theorem baryFold_float (prev : List ℕ) :
    ∀ (ps : List ℕ) (s c : ℕ),
      (ps.foldl
        (fun sc p =>
          match prev.findIdx? (fun n => n == p) with
          | some pos => (faddOpt sc.1 (some (pos : ℚ)), faddOpt sc.2 (some 1))
          | none => sc) (some (s : ℚ), some (c : ℚ)))
      = (some ((ps.foldl
          (fun sc p =>
            match prev.findIdx? (fun n => n == p) with
            | some pos => (sc.1 + pos, sc.2 + 1)
            | none => sc) (s, c)).1 : ℚ),
        some ((ps.foldl
          (fun sc p =>
            match prev.findIdx? (fun n => n == p) with
            | some pos => (sc.1 + pos, sc.2 + 1)
            | none => sc) (s, c)).2 : ℚ)) := by
  intro ps
  induction ps with
  | nil =>
    intro s c
    rfl
  | cons p rest ih =>
    intro s c
    rw [List.foldl_cons, List.foldl_cons]
    cases hf : prev.findIdx? fun n => n == p with
    | none =>
      simp only [hf]
      exact ih s c
    | some pos =>
      simp only [hf]
      have h1 : faddOpt (some (s : ℚ)) (some (pos : ℚ)) = some ((s + pos : ℕ) : ℚ) := by
        push_cast
        rfl
      have h2 : faddOpt (some (c : ℚ)) (some 1) = some ((c + 1 : ℕ) : ℚ) := by
        push_cast
        rfl
      rw [h1, h2]
      exact ih (s + pos) (c + 1)

theorem barySumsFloat_eq (prev ps : List ℕ) :
    barySumsFloat prev ps
      = (some ((barySums prev ps).1 : ℚ), some ((barySums prev ps).2 : ℚ)) := by
  unfold barySumsFloat barySums
  have h := baryFold_float prev ps 0 0
  norm_num at h
  exact h

theorem baryFloat_eq (edges : List (ℕ × ℕ)) (prev : List ℕ) (v : ℕ) :
    baryFloat edges prev v = some (bary edges prev v) := by
  unfold baryFloat bary
  rw [barySumsFloat_eq]
  simp only []
  by_cases hc : 0 < (barySums prev (inParents edges v)).2
  · have hq : (0 : ℚ) < ((barySums prev (inParents edges v)).2 : ℚ) :=
      Nat.cast_pos.mpr hc
    rw [if_pos hq, if_pos hc]
    show (if ((barySums prev (inParents edges v)).2 : ℚ) = 0 then none
        else some (((barySums prev (inParents edges v)).1 : ℚ)
          / ((barySums prev (inParents edges v)).2 : ℚ)))
      = some (((barySums prev (inParents edges v)).1 : ℚ)
          / ((barySums prev (inParents edges v)).2 : ℚ))
    rw [if_neg hq.ne']
  · have hq : ¬ (0 : ℚ) < ((barySums prev (inParents edges v)).2 : ℚ) :=
      fun hq => hc (Nat.cast_pos.mp hq)
    rw [if_neg hq, if_neg hc]

theorem insertPcmp_eq (key : ℕ → ℚ) (keyF : ℕ → Option ℚ)
    (hk : ∀ u, keyF u = some (key u)) (v : ℕ) :
    ∀ l, insertPcmp keyF v l = some (insertByKey key v l) := by
  intro l
  induction l with
  | nil => rfl
  | cons w ws ih =>
    rw [insertPcmp, insertByKey, hk w, hk v]
    simp only [pcmp]
    by_cases h : key w ≤ key v
    · have hgt : ¬ compare (key w) (key v) = Ordering.gt := by
        rw [compare_gt_iff_gt]
        exact not_lt.mpr h
      rw [if_neg hgt, if_pos h, ih]
      rfl
    · have hgt : compare (key w) (key v) = Ordering.gt := by
        rw [compare_gt_iff_gt]
        exact lt_of_not_le h
      rw [if_pos hgt, if_neg h]

theorem sortPcmp_eq (key : ℕ → ℚ) (keyF : ℕ → Option ℚ)
    (hk : ∀ u, keyF u = some (key u)) (l : List ℕ) :
    sortPcmp keyF l = some (sortByKey key l) := by
  unfold sortPcmp sortByKey
  suffices h : ∀ acc : List ℕ,
      l.foldl (fun acc v => acc.bind (insertPcmp keyF v)) (some acc)
        = some (l.foldl (fun acc v => insertByKey key v acc) acc) from h []
  induction l with
  | nil => intro acc; rfl
  | cons v rest ih =>
    intro acc
    rw [List.foldl_cons, List.foldl_cons, Option.some_bind,
      insertPcmp_eq key keyF hk v acc]
    exact ih _

theorem sweepFloat_eq (edges : List (ℕ × ℕ)) :
    ∀ (prev : List ℕ) (bs : List (List ℕ)),
      sweepFloat edges prev bs = some (sweep edges prev bs) := by
  intro prev bs
  induction bs generalizing prev with
  | nil => rfl
  | cons cur rest ih =>
    rw [sweepFloat, sweep,
      sortPcmp_eq (bary edges prev) (baryFloat edges prev) (baryFloat_eq edges prev) cur]
    simp only []
    rw [ih]
    rfl

theorem onePassFloat_eq (edges : List (ℕ × ℕ)) (bs : List (List ℕ)) :
    onePassFloat edges bs = some (onePass edges bs) := by
  cases bs with
  | nil => rfl
  | cons first rest =>
    rw [onePassFloat, onePass, sweepFloat_eq]
    rfl

theorem optimizeFloat_eq (edges : List (ℕ × ℕ)) (bs : List (List ℕ)) :
    optimizeFloat edges bs = some (optimize edges bs) := by
  unfold optimizeFloat optimize
  rw [onePassFloat_eq, Option.some_bind, onePassFloat_eq, Option.some_bind,
    onePassFloat_eq, Option.some_bind, onePassFloat_eq]

/-- **C8**: `apply` never panics, for every configuration, iteration order and
input workflow — including duplicate edges, self-loops, dangling references,
cycles and the empty graph.  In the model where the `unwrap` of `partial_cmp`
in the barycenter sort comparator is the explicit panic site (`none`), the
computation always returns `some`, because every computed barycenter is a
finite (non-NaN) value; the result is exactly the pure `apply`. -/
theorem apply_never_panics (cfg : DagLayout) (order : List ℕ) (w : Workflow) :
    applyFloat cfg order w = some (cfg.apply order w) := by
  unfold applyFloat DagLayout.apply
  by_cases hemp : w.nodes.isEmpty = true
  · rw [if_pos hemp, if_pos hemp]
  · rw [if_neg hemp, if_neg hemp]
    cases htp : toposort (buildEdges w.nodes w.connections) w.nodes.length with
    | none => rfl
    | some ord => simp only [optimizeFloat_eq]

/-! ## Claim theorem: determinism (C1) and concrete witnesses -/

/-- **C1**: determinism fails on the code.  `[0, 1, 2]` and `[0, 2, 1]` are
both legitimate iteration orders of the `layers` map (each enumerates every
key exactly once), yet on the fork workflow they produce different output
coordinates: the two barycenter-tied nodes keep whichever relative order the
`HashMap` iteration happened to give them. -/
theorem apply_not_deterministic :
    List.Perm [0, 1, 2] (List.range wFork.nodes.length) ∧
    List.Perm [0, 2, 1] (List.range wFork.nodes.length) ∧
    DagLayout.defaultLayout.apply [0, 1, 2] wFork
      ≠ DagLayout.defaultLayout.apply [0, 2, 1] wFork := by
  have h1 : (DagLayout.defaultLayout.apply [0, 1, 2] wFork).nodes.map Node.x
      = [-120, -270, 30] := by
    norm_num [DagLayout.apply, DagLayout.defaultLayout, wFork, toposort, kahnAux,
      isReady, buildEdges, indexMap, layersOf, buildLayers, layerCalc, layerStep,
      groupByLayer, pushAt, optimize, onePass, sweep, sortByKey, insertByKey,
      bary, barySums, inParents, assignments, assignLayer, writeBack, updateFirst,
      List.find?, List.findIdx?, List.range, List.range.loop, List.filterMap,
      List.foldl, List.all, List.map, List.enum, List.enumFrom, List.flatten,
      List.erase]
  have h2 : (DagLayout.defaultLayout.apply [0, 2, 1] wFork).nodes.map Node.x
      = [-120, 30, -270] := by
    norm_num [DagLayout.apply, DagLayout.defaultLayout, wFork, toposort, kahnAux,
      isReady, buildEdges, indexMap, layersOf, buildLayers, layerCalc, layerStep,
      groupByLayer, pushAt, optimize, onePass, sweep, sortByKey, insertByKey,
      bary, barySums, inParents, assignments, assignLayer, writeBack, updateFirst,
      List.find?, List.findIdx?, List.range, List.range.loop, List.filterMap,
      List.foldl, List.all, List.map, List.enum, List.enumFrom, List.flatten,
      List.erase]
  refine ⟨by decide, by decide, fun h => ?_⟩
  rw [h, h2] at h1
  norm_num at h1

/-- **C4 (counterexample)**: on a single-node workflow the only assigned x —
hence both the layer minimum and the layer maximum — is `-120`, and
`-120 ≠ -(-120)`: the claimed symmetry of min and max about `0` fails. -/
theorem horizontal_centering_counterexample :
    ((DagLayout.defaultLayout.apply [0] wOne).nodes.map Node.x) = [-120] ∧
    ¬ ((-120 : ℚ) = -(-120 : ℚ)) := by
  constructor
  · norm_num [DagLayout.apply, DagLayout.defaultLayout, wOne, toposort, kahnAux,
      isReady, buildEdges, indexMap, layersOf, buildLayers, layerCalc, layerStep,
      groupByLayer, pushAt, optimize, onePass, sweep, sortByKey, insertByKey,
      bary, barySums, inParents, assignments, assignLayer, writeBack, updateFirst,
      List.find?, List.findIdx?, List.range, List.range.loop, List.filterMap,
      List.foldl, List.all, List.map, List.enum, List.enumFrom, List.flatten,
      List.erase]
  · norm_num

/-- Witness for the cycle no-op theorem at the concrete two-node cycle. -/
theorem cyclic_apply_noop_witness :
    DagLayout.defaultLayout.apply [0, 1] wCyc = wCyc :=
  cyclic_apply_noop DagLayout.defaultLayout [0, 1] wCyc
    ⟨0, Relation.TransGen.head
      (show ((0 : ℕ), (1 : ℕ)) ∈ buildEdges wCyc.nodes wCyc.connections by decide)
      (Relation.TransGen.single
        (show ((1 : ℕ), (0 : ℕ)) ∈ buildEdges wCyc.nodes wCyc.connections by
          decide))⟩

/-- Witness for the self-loop no-op theorem at the concrete one-node loop. -/
theorem self_loop_apply_noop_witness :
    DagLayout.defaultLayout.apply [0] wSelf = wSelf :=
  self_loop_apply_noop DagLayout.defaultLayout [0] wSelf
    (show ({ source := 1, target := 1 } : Connection) ∈ wSelf.connections from
      List.mem_singleton.mpr rfl)
    rfl
    ⟨{ id := 1, x := 2, y := 3 }, List.mem_singleton.mpr rfl, rfl⟩

/-- Witness for the layering theorem at the concrete chain `1 → 2`. -/
theorem layering_correct_witness :
    (∃ lu lv,
        layersOf (buildEdges wChain.nodes wChain.connections) [0, 1] 0 = some lu ∧
        layersOf (buildEdges wChain.nodes wChain.connections) [0, 1] 1 = some lv ∧
        lu < lv) ∧
    ∃ nu nv,
      (DagLayout.defaultLayout.apply [0, 1] wChain).nodes.get? 0 = some nu ∧
      (DagLayout.defaultLayout.apply [0, 1] wChain).nodes.get? 1 = some nv ∧
      nu.y + DagLayout.defaultLayout.layer_spacing ≤ nv.y :=
  @layering_correct DagLayout.defaultLayout [0, 1] wChain [0, 1]
    (by decide) (by decide) (by decide)
    (by norm_num [DagLayout.defaultLayout]) (0, 1) (by decide)

/-- Witness for the root-placement theorem at the disconnected single node. -/
theorem root_layer_zero_witness :
    layersOf (buildEdges wOne.nodes wOne.connections) [0] 0 = some 0 ∧
    ∃ nv, (DagLayout.defaultLayout.apply [0] wOne).nodes.get? 0 = some nv ∧
      nv.y = 0 :=
  root_layer_zero (by decide) (by decide) (by decide) (by decide) (by decide)

/-- Witness for the coordinate-assignment formula at the chain `1 → 2`:
node 2 sits alone in layer 1. -/
theorem coordinate_assignment_formula_witness :
    (DagLayout.defaultLayout.apply [0, 1] wChain).nodes.get? 1
      = some { ({ id := 2, x := 8, y := 9 } : Node) with
          x := -((([1] : List ℕ).length : ℚ)
                * (240 + DagLayout.defaultLayout.node_spacing)
                - DagLayout.defaultLayout.node_spacing) / 2
              + ((0 : ℕ) : ℚ) * (240 + DagLayout.defaultLayout.node_spacing),
          y := ((1 : ℕ) : ℚ) * DagLayout.defaultLayout.layer_spacing } :=
  @coordinate_assignment_formula DagLayout.defaultLayout [0, 1] wChain [0, 1]
    (by decide) (by decide) (by decide) 1 0 1 [1] { id := 2, x := 8, y := 9 }
    (by norm_num [DagLayout.defaultLayout, wChain, toposort, kahnAux, isReady,
      buildEdges, indexMap, layersOf, buildLayers, layerCalc, layerStep,
      groupByLayer, pushAt, optimize, onePass, sweep, sortByKey, insertByKey,
      bary, barySums, inParents, List.find?, List.findIdx?, List.range,
      List.range.loop, List.filterMap, List.foldl, List.all, List.map,
      List.enum, List.enumFrom, List.flatten, List.erase])
    rfl rfl

/-- Witness for the amended horizontal-centering theorem on a two-node
layer. -/
theorem horizontal_centering_amended_witness :
    ∃ m M : ℚ,
      (m ∈ (assignLayer DagLayout.defaultLayout 0 [0, 1]).map (fun a => a.2.1) ∧
        ∀ b ∈ (assignLayer DagLayout.defaultLayout 0 [0, 1]).map
          (fun a => a.2.1), m ≤ b) ∧
      (M ∈ (assignLayer DagLayout.defaultLayout 0 [0, 1]).map (fun a => a.2.1) ∧
        ∀ b ∈ (assignLayer DagLayout.defaultLayout 0 [0, 1]).map
          (fun a => a.2.1), b ≤ M) ∧
      m + M = -240 :=
  horizontal_centering_amended DagLayout.defaultLayout 0 (by decide)
    (by norm_num [DagLayout.defaultLayout])

/-- Witness for the duplicate-id theorem: the second node with id 1 keeps its
record unchanged. -/
theorem duplicate_id_untouched_witness :
    (DagLayout.defaultLayout.apply [0, 1] wDup).nodes.get? 1
      = some { id := 1, x := 5, y := 6 } :=
  duplicate_id_untouched DagLayout.defaultLayout [0, 1]
    (show wDup.nodes.get? 0 = some { id := 1, x := 0, y := 0 } from rfl)
    (show wDup.nodes.get? 1 = some { id := 1, x := 5, y := 6 } from rfl)
    (by decide) rfl
